import Mathlib

/-!
Verification development for the QSimulateX quantum-circuit simulator.

The Python sources are embedded shallowly:
* numpy/scipy arrays become `Mat`/`Vec`: shape data plus a total entry
  function (entries outside the shape are 0 by construction, matching the
  convention that out-of-range reads never occur in the source);
* floating-point numbers become exact real numbers `ℝ` (complexes `ℂ`),
  so "equal within tolerance" claims are settled by exact equality or by
  explicit counterexample values whose distance exceeds the tolerance;
* exceptions (`ValueError`, `NotImplementedError`, shape errors raised by
  numpy) become `Except SimError` / an `Option SimError` component.
-/

namespace QSim

/-- A numpy-style 2-D complex array: shape plus entry function
(entries outside the shape are `0` for every constructor below). -/
@[ext]
structure Mat where
  rows : ℕ
  cols : ℕ
  entry : ℕ → ℕ → ℂ

/-- A numpy-style 1-D complex array. -/
@[ext]
structure Vec where
  size : ℕ
  entry : ℕ → ℂ

/-- Build a matrix from a row-major list literal (mirrors `np.array([[...]])`). -/
def mkMat (r c : ℕ) (l : List (List ℂ)) : Mat :=
  ⟨r, c, fun i j => ((l.getD i []).getD j 0)⟩

/-- `np.eye(n)` / `scipy.sparse.identity(n)`. -/
def idMat (n : ℕ) : Mat :=
  ⟨n, n, fun i j => if i = j ∧ i < n then 1 else 0⟩

/-- `np.kron` (also `scipy.sparse.kron`, identical values in exact arithmetic). -/
def kron (A B : Mat) : Mat :=
  ⟨A.rows * B.rows, A.cols * B.cols,
   fun i j => A.entry (i / B.rows) (j / B.cols) * B.entry (i % B.rows) (j % B.cols)⟩

/-- Errors surfaced by the simulator (Python exceptions). -/
inductive SimError where
  | unknownGate (name : String) : SimError
  | unsupportedTopology : SimError
  | unsupportedArity (k : ℕ) : SimError
  | shapeMismatch : SimError
deriving DecidableEq

/-- `np.dot(matrix, state)` / `csr.dot(state)`: numpy raises on a
shape mismatch, modelled by the `Except` error. -/
noncomputable def matVec (A : Mat) (v : Vec) : Except SimError Vec :=
  if A.cols = v.size then
    .ok ⟨A.rows, fun i =>
      if i < A.rows then ∑ j ∈ Finset.range A.cols, A.entry i j * v.entry j else 0⟩
  else .error .shapeMismatch

/-- Sum of squared magnitudes of a state vector. -/
noncomputable def sumNormSq (v : Vec) : ℝ :=
  ∑ i ∈ Finset.range v.size, Complex.normSq (v.entry i)

/-! ### Gate library (`gates.py`) -/

noncomputable def pauli_x : Mat := mkMat 2 2 [[0, 1], [1, 0]]

noncomputable def pauli_y : Mat := mkMat 2 2 [[0, -Complex.I], [Complex.I, 0]]

noncomputable def pauli_z : Mat := mkMat 2 2 [[1, 0], [0, -1]]

/-- `np.array([[1,1],[1,-1]]) / np.sqrt(2)`. -/
noncomputable def hadamard : Mat :=
  ⟨2, 2, fun i j => (mkMat 2 2 [[1, 1], [1, -1]]).entry i j / (Real.sqrt 2 : ℂ)⟩

noncomputable def t_gate : Mat :=
  mkMat 2 2 [[1, 0], [0, Complex.exp (Complex.I * ((Real.pi : ℂ) / 4))]]

noncomputable def s_gate : Mat := mkMat 2 2 [[1, 0], [0, Complex.I]]

noncomputable def rx (θ : ℝ) : Mat :=
  mkMat 2 2 [[(Real.cos (θ/2) : ℂ), -Complex.I * (Real.sin (θ/2) : ℂ)],
             [-Complex.I * (Real.sin (θ/2) : ℂ), (Real.cos (θ/2) : ℂ)]]

noncomputable def ry (θ : ℝ) : Mat :=
  mkMat 2 2 [[(Real.cos (θ/2) : ℂ), -(Real.sin (θ/2) : ℂ)],
             [(Real.sin (θ/2) : ℂ), (Real.cos (θ/2) : ℂ)]]

noncomputable def rz (θ : ℝ) : Mat :=
  mkMat 2 2 [[Complex.exp (-Complex.I * (θ/2 : ℝ)), 0],
             [0, Complex.exp (Complex.I * (θ/2 : ℝ))]]

noncomputable def phase (φ : ℝ) : Mat :=
  mkMat 2 2 [[1, 0], [0, Complex.exp (Complex.I * (φ : ℝ))]]

noncomputable def cnot : Mat :=
  mkMat 4 4 [[1, 0, 0, 0], [0, 1, 0, 0], [0, 0, 0, 1], [0, 0, 1, 0]]

noncomputable def cz : Mat :=
  mkMat 4 4 [[1, 0, 0, 0], [0, 1, 0, 0], [0, 0, 1, 0], [0, 0, 0, -1]]

noncomputable def swap : Mat :=
  mkMat 4 4 [[1, 0, 0, 0], [0, 0, 1, 0], [0, 1, 0, 0], [0, 0, 0, 1]]

/-- `np.eye(8)` with rows 6 and 7 swapped by the four element assignments. -/
noncomputable def toffoli : Mat :=
  ⟨8, 8, fun i j =>
    if (i = 6 ∧ j = 6) ∨ (i = 7 ∧ j = 7) then 0
    else if (i = 6 ∧ j = 7) ∨ (i = 7 ∧ j = 6) then 1
    else (idMat 8).entry i j⟩

/-! ### Gate records and gate lookup -/

/-- `optimizer.GateNode`: gate name, target qubits, parameter mapping, depth
annotation.  Parameters are an association list standing for the Python dict. -/
structure GateNode where
  gate_name : String
  qubits : List ℕ
  params : List (String × ℝ)
  depth : ℕ := 0

instance : Inhabited GateNode := ⟨⟨"", [], [], 0⟩⟩

/-- `params.get M` with default 0 (Python `params.get(key, 0)`). -/
def getParam (ps : List (String × ℝ)) (k : String) : ℝ :=
  (ps.lookup k).getD 0

/-- `gates.get_gate`: fixed names from `GATE_MAP`, then the parameterized
rotation/phase gates, otherwise an unknown-gate error. -/
noncomputable def get_gate (name : String) (ps : List (String × ℝ)) : Except SimError Mat :=
  if name = "X" then .ok pauli_x
  else if name = "Y" then .ok pauli_y
  else if name = "Z" then .ok pauli_z
  else if name = "H" then .ok hadamard
  else if name = "T" then .ok t_gate
  else if name = "S" then .ok s_gate
  else if name = "CNOT" then .ok cnot
  else if name = "CZ" then .ok cz
  else if name = "SWAP" then .ok swap
  else if name = "TOFFOLI" then .ok toffoli
  else if name = "RX" then .ok (rx (getParam ps "theta"))
  else if name = "RY" then .ok (ry (getParam ps "theta"))
  else if name = "RZ" then .ok (rz (getParam ps "theta"))
  else if name = "PHASE" then .ok (phase (getParam ps "phi"))
  else .error (.unknownGate name)

/-! ### Operator expansion (`gates.apply_single_qubit_gate`,
`gates.apply_two_qubit_gate`) -/

/-- Body shared by the dense and sparse branches of
`apply_single_qubit_gate` (the two branches perform the same Kronecker
fold; CSR and dense arrays have equal values in exact arithmetic):
start from the gate (qubit 0) or the identity, then fold
`kron` over positions `1, …, n-1`, inserting the gate at `qubit_index`. -/
noncomputable def singleQubitBuild (g : Mat) (q n : ℕ) : Mat :=
  (List.range' 1 (n - 1)).foldl
    (fun acc i => kron acc (if i = q then g else idMat 2))
    (if q = 0 then g else idMat 2)

/-- `apply_single_qubit_gate`. -/
noncomputable def apply_single_qubit_gate (g : Mat) (q n : ℕ) (useSparse : Bool) : Mat :=
  if useSparse then singleQubitBuild g q n else singleQubitBuild g q n

/-- Dense branch of `apply_two_qubit_gate`: identities for positions below
`min control target`, the 4×4 gate, identities for the rest. -/
noncomputable def twoQubitDenseBuild (g : Mat) (c t n : ℕ) : Mat :=
  let mi := min c t
  let r1 := (List.range' 0 mi).foldl (fun acc _ => kron acc (idMat 2)) (idMat 1)
  let r2 := kron r1 g
  (List.range' (mi + 2) (n - (mi + 2))).foldl (fun acc _ => kron acc (idMat 2)) r2

/-- The sparse branch's first loop: `for i in range(0, n_qubits, 2)` with a
`break` once the gate is inserted at `min_idx`. -/
noncomputable def twoQubitSparseLoop (g : Mat) (mi : ℕ) : List ℕ → Mat → Mat
  | [], acc => acc
  | i :: rest, acc =>
    if i = mi then kron acc g
    else twoQubitSparseLoop g mi rest (kron acc (idMat 2))

/-- Sparse branch of `apply_two_qubit_gate`: the stride-2 loop, then
identities for positions `min_idx+2, …, n-1`. -/
noncomputable def twoQubitSparseBuild (g : Mat) (c t n : ℕ) : Mat :=
  let mi := min c t
  let r := twoQubitSparseLoop g mi (List.range' 0 ((n + 1) / 2) 2) (idMat 1)
  (List.range' (mi + 2) (n - (mi + 2))).foldl (fun acc _ => kron acc (idMat 2)) r

/-- `apply_two_qubit_gate`: the adjacency check guards both branches. -/
noncomputable def apply_two_qubit_gate (g : Mat) (c t n : ℕ) (useSparse : Bool) :
    Except SimError Mat :=
  if Nat.dist c t ≠ 1 then .error .unsupportedTopology
  else .ok (if useSparse then twoQubitSparseBuild g c t n else twoQubitDenseBuild g c t n)

/-! ### The simulation engine (`circuits.QuantumCircuit.run`, standard
state-vector path) -/

/-- `qubit.create_multi_qubit_state`: amplitude 1 at the given basis index. -/
noncomputable def basisVec (n k : ℕ) : Vec :=
  ⟨2 ^ n, fun i => if i = k ∧ i < 2 ^ n then 1 else 0⟩

/-- One iteration of the gate loop in `run`: resolve the gate matrix, expand
it according to the target arity, multiply into the state. -/
noncomputable def runStep (useSparse : Bool) (n : ℕ) (v : Vec) (g : GateNode) :
    Except SimError Vec :=
  match get_gate g.gate_name g.params with
  | .error e => .error e
  | .ok gm =>
    if g.qubits.length = 1 then
      matVec (apply_single_qubit_gate gm (g.qubits.getD 0 0) n useSparse) v
    else if g.qubits.length = 2 then
      match apply_two_qubit_gate gm (g.qubits.getD 0 0) (g.qubits.getD 1 0) n useSparse with
      | .error e => .error e
      | .ok full => matVec full v
    else .error (.unsupportedArity g.qubits.length)

/-- The gate loop of `run`.  On an exception the loop aborts and the session's
state keeps the value produced by the gates already processed, so the result
is that intermediate state paired with the error. -/
noncomputable def runGates (useSparse : Bool) (n : ℕ) : Vec → List GateNode → Vec × Option SimError
  | v, [] => (v, none)
  | v, g :: rest =>
    match runStep useSparse n v g with
    | .ok w => runGates useSparse n w rest
    | .error e => (v, some e)

/-! ### Circuit optimizer (`optimizer.CircuitOptimizer`) -/

/-- The self-inverse names of `_cancel_inverse_gates`' `inverse_pairs`
(each maps to itself). -/
def selfInverseNames : List String := ["X", "Y", "Z", "H", "CNOT"]

/-- The `while i < len(gates)` loop of `_cancel_inverse_gates`, index-based
as in the source: drop a consecutive pair with equal target lists and equal
self-inverse name, resuming after the pair; otherwise keep the gate. -/
def cancelAux (gates : List GateNode) (i : ℕ) : List GateNode :=
  if h : i < gates.length then
    let g := gates.getD i default
    if i + 1 < gates.length ∧ g.gate_name ∈ selfInverseNames ∧
        (gates.getD (i + 1) default).gate_name = g.gate_name ∧
        g.qubits = (gates.getD (i + 1) default).qubits then
      cancelAux gates (i + 2)
    else
      g :: cancelAux gates (i + 1)
  else []
termination_by gates.length - i

/-- `_cancel_inverse_gates`. -/
def cancelInverseGates (gates : List GateNode) : List GateNode :=
  cancelAux gates 0

/-- The claim's description of `cancel_inverse`, written structurally:
a single forward pass removing consecutive equal-target self-inverse pairs,
resuming after each removed pair. -/
def cancelInverseSpec : List GateNode → List GateNode
  | [] => []
  | [g] => [g]
  | g1 :: g2 :: rest =>
    if g1.gate_name ∈ selfInverseNames ∧ g2.gate_name = g1.gate_name ∧
        g1.qubits = g2.qubits then
      cancelInverseSpec rest
    else
      g1 :: cancelInverseSpec (g2 :: rest)

/-- The rotation names recognised by `_merge_rotation_gates`. -/
def rotationNames : List String := ["RX", "RY", "RZ"]

/-- The rotation angle of a gate record: `gate.params.get('theta', 0)`. -/
def theta (g : GateNode) : ℝ := getParam g.params "theta"

/-- Python's float modulo for a positive modulus: `a % b = a - b*⌊a/b⌋`. -/
noncomputable def pymod (a b : ℝ) : ℝ := a - b * ⌊a / b⌋

/-- The inner `while` of `_merge_rotation_gates`: starting at index `j`,
consume gates with the same name and target list as `g`, accumulating their
angles; return the first unconsumed index and the angle total. -/
def scanRun (gates : List GateNode) (g : GateNode) (j : ℕ) (total : ℝ) : ℕ × ℝ :=
  if h : j < gates.length ∧ (gates.getD j default).gate_name = g.gate_name ∧
      (gates.getD j default).qubits = g.qubits then
    scanRun gates g (j + 1) (total + theta (gates.getD j default))
  else (j, total)
termination_by gates.length - j
decreasing_by omega

theorem scanRun_fst_ge (gates : List GateNode) (g : GateNode) :
    ∀ j total, j ≤ (scanRun gates g j total).1 := by
  have key : ∀ m j total, gates.length - j ≤ m → j ≤ (scanRun gates g j total).1 := by
    intro m
    induction m with
    | zero =>
      intro j total hj
      rw [scanRun]
      split
      · next hc => omega
      · exact le_refl j
    | succ m ih =>
      intro j total hj
      rw [scanRun]
      split
      · next hc =>
        have h1 := ih (j + 1) (total + theta (gates.getD j default)) (by omega)
        omega
      · exact le_refl j
  intro j total
  exact key gates.length j total (by omega)

/-- The `while i < len(gates)` loop of `_merge_rotation_gates`. -/
noncomputable def mergeAux (gates : List GateNode) (i : ℕ) : List GateNode :=
  if h : i < gates.length then
    let g := gates.getD i default
    if g.gate_name ∈ rotationNames ∧ g.qubits.length = 1 then
      let p := scanRun gates g (i + 1) (theta g)
      let rest := mergeAux gates p.1
      if 1e-10 < |pymod p.2 (2 * Real.pi)| then
        ⟨g.gate_name, g.qubits, [("theta", pymod p.2 (2 * Real.pi))], g.depth⟩ :: rest
      else rest
    else g :: mergeAux gates (i + 1)
  else []
termination_by gates.length - i
decreasing_by
  · have := scanRun_fst_ge gates (gates.getD i default) (i + 1) (theta (gates.getD i default))
    omega
  · omega

/-- `_merge_rotation_gates`. -/
noncomputable def mergeRotations (gates : List GateNode) : List GateNode :=
  mergeAux gates 0

theorem dropWhile_length_le {α : Type} (p : α → Bool) :
    ∀ l : List α, (l.dropWhile p).length ≤ l.length := by
  intro l
  induction l with
  | nil => simp [List.dropWhile]
  | cons a rest ih =>
    by_cases hp : p a
    · simp only [List.dropWhile, hp]
      exact Nat.le_trans ih (by simp)
    · simp [List.dropWhile, hp]

/-- Membership in the maximal run started by `g`: same rotation kind and
same target-qubit list. -/
def sameRunB (g : GateNode) : GateNode → Bool :=
  fun h => h.gate_name == g.gate_name && h.qubits == g.qubits

/-- The claim's description of `merge_rotations`, written structurally: each
maximal run of consecutive same-kind same-target rotations becomes one gate
carrying the run's angle sum reduced modulo 2π, or nothing when that reduced
angle is within 1e-10 of zero; other gates pass through in order. -/
noncomputable def mergeRotationsSpec : List GateNode → List GateNode
  | [] => []
  | g :: rest =>
    if g.gate_name ∈ rotationNames ∧ g.qubits.length = 1 then
      let total := theta g + ((rest.takeWhile (sameRunB g)).map theta).sum
      let tail := mergeRotationsSpec (rest.dropWhile (sameRunB g))
      if 1e-10 < |pymod total (2 * Real.pi)| then
        ⟨g.gate_name, g.qubits, [("theta", pymod total (2 * Real.pi))], g.depth⟩ :: tail
      else tail
    else g :: mergeRotationsSpec rest
termination_by l => l.length
decreasing_by
  · have := dropWhile_length_le (sameRunB g) rest
    simp only [List.length_cons]
    omega
  · simp

/-- `set(gate1.qubits).isdisjoint(set(gate2.qubits))`. -/
def disjointQubits (g1 g2 : GateNode) : Bool :=
  g1.qubits.all (fun q => !(g2.qubits.contains q))

/-- One pass of the `for i in range(len(optimized) - 1)` loop of
`_commute_gates`: lower the later gate's depth onto the earlier one's for
adjacent disjoint pairs (the update is visible to the next comparison, as
with Python's in-place assignment), reporting whether anything changed. -/
def commutePass : List GateNode → List GateNode × Bool
  | [] => ([], false)
  | [g] => ([g], false)
  | g1 :: g2 :: rest =>
    if disjointQubits g1 g2 ∧ g1.depth < g2.depth then
      let r := commutePass ({ g2 with depth := g1.depth } :: rest)
      (g1 :: r.1, true)
    else
      let r := commutePass (g2 :: rest)
      (g1 :: r.1, r.2)
termination_by l => l.length
decreasing_by
  · simp
  · simp

/-- Total depth of a gate list, the termination measure of the
`while changed` loop. -/
def sumDepth (l : List GateNode) : ℕ := (l.map GateNode.depth).sum

theorem commutePass_sumDepth_le : ∀ l : List GateNode, sumDepth (commutePass l).1 ≤ sumDepth l := by
  intro l
  induction l using commutePass.induct with
  | case1 => simp [commutePass]
  | case2 g => simp [commutePass]
  | case3 g1 g2 rest hc ih =>
    simp only [commutePass, if_pos hc] at ih ⊢
    simp only [sumDepth, List.map_cons, List.sum_cons] at ih ⊢
    omega
  | case4 g1 g2 rest hc ih =>
    simp only [commutePass, if_neg hc] at ih ⊢
    simp only [sumDepth, List.map_cons, List.sum_cons] at ih ⊢
    omega

theorem commutePass_sumDepth_lt :
    ∀ l : List GateNode, (commutePass l).2 = true → sumDepth (commutePass l).1 < sumDepth l := by
  intro l
  induction l using commutePass.induct with
  | case1 => simp [commutePass]
  | case2 g => simp [commutePass]
  | case3 g1 g2 rest hc _ =>
    intro _
    simp only [commutePass, if_pos hc]
    have h1 := commutePass_sumDepth_le ({ g2 with depth := g1.depth } :: rest)
    simp only [sumDepth, List.map_cons, List.sum_cons] at h1 ⊢
    omega
  | case4 g1 g2 rest hc ih =>
    simp only [commutePass, if_neg hc]
    intro h2
    have h1 := ih h2
    simp only [sumDepth, List.map_cons, List.sum_cons] at h1 ⊢
    omega

/-- The `while changed` loop of `_commute_gates`: run passes until one
reports no change. -/
def commuteLoop (gates : List GateNode) : List GateNode :=
  let r := commutePass gates
  if h : r.2 = true then commuteLoop r.1 else r.1
termination_by sumDepth gates
decreasing_by exact commutePass_sumDepth_lt gates h

/-- `_commute_gates` (value level: the returned list; in Python the list
returned by `gates.copy()` holds the caller's records, so these depth values
are also the caller's records' depths after the call). -/
def commuteGates (gates : List GateNode) : List GateNode :=
  commuteLoop gates

/-- The default rule order, `list(self.optimization_rules.keys())`. -/
def defaultRules : List String := ["cancel_inverse", "merge_rotations", "commute_gates"]

/-- Dispatch of `self.optimization_rules[rule_name]`; names not in the
registry are skipped (`if rule_name in self.optimization_rules`). -/
noncomputable def applyRule (name : String) (gates : List GateNode) : List GateNode :=
  if name = "cancel_inverse" then cancelInverseGates gates
  else if name = "merge_rotations" then mergeRotations gates
  else if name = "commute_gates" then commuteGates gates
  else gates

/-- `CircuitOptimizer.optimize`: fold the selected rules (default pipeline
when `rules is None`) over the gate list. -/
noncomputable def optimize (gates : List GateNode) (rules : Option (List String)) :
    List GateNode :=
  (rules.getD defaultRules).foldl (fun acc r => applyRule r acc) gates

/-- `QuantumCircuit.run` on the standard state-vector path: optionally
optimize, reset the state to the all-zero basis state, then apply the gates. -/
noncomputable def run (useSparse optimizeFlag : Bool) (n : ℕ) (gates : List GateNode) :
    Vec × Option SimError :=
  runGates useSparse n (basisVec n 0)
    (if optimizeFlag then optimize gates none else gates)

/-! ### MPS construction (`tensor_networks.MPS.from_state_vector`)

numpy n-D arrays are embedded as a shape list plus row-major flat data.
`np.linalg.svd(..., full_matrices=False)` is kept abstract: the embedding
is parameterized by an SVD oracle whose output shapes obey numpy's contract
(`U : r×k`, `S : k`, `Vh : k×c` with `k = min r c` for an `r×c` input). -/

/-- A numpy ndarray: shape plus row-major flat data. -/
structure Arr where
  shape : List ℕ
  data : ℕ → ℂ

instance : Inhabited Arr := ⟨⟨[], fun _ => 0⟩⟩

def Arr.size (a : Arr) : ℕ := a.shape.prod

/-- `a.reshape(sh)`: numpy raises unless the total size is preserved. -/
def reshape (a : Arr) (sh : List ℕ) : Except SimError Arr :=
  if sh.prod = a.size then .ok ⟨sh, a.data⟩ else .error .shapeMismatch

/-- `a.reshape(r, -1)`: the second dimension is inferred; numpy raises
unless `r` divides the total size. -/
def reshapeRows (a : Arr) (r : ℕ) : Except SimError Arr :=
  if 0 < r ∧ r ∣ a.size then .ok ⟨[r, a.size / r], a.data⟩ else .error .shapeMismatch

/-- `a.reshape(-1, c)`. -/
def reshapeCols (a : Arr) (c : ℕ) : Except SimError Arr :=
  if 0 < c ∧ c ∣ a.size then .ok ⟨[a.size / c, c], a.data⟩ else .error .shapeMismatch

/-- `U[:, :b]` for a 2-D array. -/
def sliceCols (a : Arr) (b : ℕ) : Arr :=
  let r := a.shape.getD 0 0
  let c := a.shape.getD 1 0
  let c' := min b c
  ⟨[r, c'], fun m => a.data (m / c' * c + m % c')⟩

/-- `S[:b]` for a 1-D array. -/
def slice1D (a : Arr) (b : ℕ) : Arr :=
  ⟨[min b (a.shape.getD 0 0)], a.data⟩

/-- `Vh[:b, :]` for a 2-D array (a prefix of the row-major data). -/
def sliceRows (a : Arr) (b : ℕ) : Arr :=
  ⟨[min b (a.shape.getD 0 0), a.shape.getD 1 0], a.data⟩

/-- `np.diag(S) @ Vh`: entry `(i, j)` is `S i * Vh i j`. -/
def matmulDiag (S Vh : Arr) : Arr :=
  let k := S.shape.getD 0 0
  let c := Vh.shape.getD 1 0
  ⟨[k, c], fun m => S.data (m / c) * Vh.data m⟩

/-- The `|0…0⟩` tensor chain built by `MPS.__init__` (overwritten by
`from_state_vector` before use). -/
def mpsInitTensors (n : ℕ) : List Arr :=
  (List.range n).map fun i =>
    if i = 0 then ⟨[2, 1], fun m => if m = 0 then 1 else 0⟩
    else if i = n - 1 then ⟨[1, 2], fun m => if m = 0 then 1 else 0⟩
    else ⟨[1, 2, 1], fun m => if m = 0 then 1 else 0⟩

/-- One iteration of the SVD sweep in `from_state_vector`: reshape the
remaining tensor to `2 * 2**i` rows, take the SVD, truncate the bond to
`min(max_bond_dim, len(S))`, store the reshaped `U` at slot `i` (reading the
previous slot's last dimension when `i ≠ 0`), and rebuild the remainder. -/
def fromSVStep (svd : Arr → Arr × Arr × Arr) (maxBond n : ℕ)
    (st : List Arr × Arr) (i : ℕ) : Except SimError (List Arr × Arr) := do
  let tensors := st.1
  let rem2 ← reshapeRows st.2 (2 * 2 ^ i)
  let usv := svd rem2
  let bond := min maxBond (usv.2.1.shape.getD 0 0)
  let Ut := sliceCols usv.1 bond
  let St := slice1D usv.2.1 bond
  let Vht := sliceRows usv.2.2 bond
  let tnew ←
    if i = 0 then reshape Ut [2, bond]
    else reshape Ut [(tensors.getD (i - 1) default).shape.getLastD 0, 2, bond]
  let rem ← reshape (matmulDiag St Vht) ([bond] ++ List.replicate (n - i - 1) 2)
  pure (tensors.set i tnew, rem)

/-- `MPS.from_state_vector` (shape-faithful; the SVD values are supplied by
the abstract oracle `svd`). -/
def from_state_vector (svd : Arr → Arr × Arr × Arr) (state : Arr) (maxBond : ℕ) :
    Except SimError (List Arr) := do
  let n := Nat.log2 state.size
  let rem0 ← reshape state (List.replicate n 2)
  let st ← (List.range (n - 1)).foldlM (fromSVStep svd maxBond n) (mpsInitTensors n, rem0)
  let last ← reshapeCols st.2 2
  pure (st.1.set (n - 1) last)

/-- numpy's shape contract for `np.linalg.svd(A, full_matrices=False)`. -/
def SvdWellShaped (svd : Arr → Arr × Arr × Arr) : Prop :=
  ∀ a r c, a.shape = [r, c] →
    (svd a).1.shape = [r, min r c] ∧ (svd a).2.1.shape = [min r c] ∧
    (svd a).2.2.shape = [min r c, c]

/-- A shape-correct stand-in SVD oracle (zero factors of the contracted
shapes), used to instantiate theorems quantified over the oracle. -/
def svdTriv : Arr → Arr × Arr × Arr := fun a =>
  (⟨[a.shape.getD 0 0, min (a.shape.getD 0 0) (a.shape.getD 1 0)], fun _ => 0⟩,
   ⟨[min (a.shape.getD 0 0) (a.shape.getD 1 0)], fun _ => 0⟩,
   ⟨[min (a.shape.getD 0 0) (a.shape.getD 1 0), a.shape.getD 1 0], fun _ => 0⟩)

/-- The Measurement Outcome Table key of basis index `k` for `n` qubits
(`format(outcome, '0{n}b')`): the `n`-bit zero-padded binary string, written
most-significant bit first; modelled as the list of its bits. -/
def binaryKey (n k : ℕ) : List ℕ :=
  (List.range n).map fun p => k / 2 ^ (n - 1 - p) % 2

/-! ### Unitarity infrastructure -/

/-- The columns of `A` within its shape are orthonormal (`Aᴴ A = I`
entrywise); a square matrix with this property is unitary, and any such
matrix preserves the 2-norm of vectors it multiplies. -/
noncomputable def orthoCols (A : Mat) : Prop :=
  ∀ k l, k < A.cols → l < A.cols →
    (∑ i ∈ Finset.range A.rows, (starRingEnd ℂ) (A.entry i k) * A.entry i l) =
      if k = l then 1 else 0

theorem sum_range_mul_eq_double {M : Type} [AddCommMonoid M] (a b : ℕ) (f : ℕ → M) :
    ∑ i ∈ Finset.range (a * b), f i =
      ∑ p ∈ Finset.range a, ∑ q ∈ Finset.range b, f (b * p + q) := by
  induction a with
  | zero => simp
  | succ a ih =>
    have h1 : (a + 1) * b = a * b + b := by ring
    rw [h1, Finset.range_eq_Ico,
      ← Finset.sum_Ico_consecutive f (Nat.zero_le (a * b)) (Nat.le_add_right (a * b) b),
      ← Finset.range_eq_Ico, ih, Finset.sum_Ico_eq_sum_range, Finset.sum_range_succ]
    congr 1
    simp only [Nat.add_sub_cancel_left]
    exact Finset.sum_congr rfl fun q _ => by rw [Nat.mul_comm b a]

theorem orthoCols_idMat (n : ℕ) : orthoCols (idMat n) := by
  intro k l hk hl
  simp only [idMat] at hk hl ⊢
  have h1 : ∀ i ∈ Finset.range n,
      (starRingEnd ℂ) (if i = k ∧ i < n then 1 else 0) * (if i = l ∧ i < n then 1 else 0) =
        if i = k then (if k = l then 1 else 0) else 0 := by
    intro i hi
    have hin : i < n := Finset.mem_range.mp hi
    by_cases h2 : i = k
    · by_cases h3 : i = l
      · have h4 : k = l := by omega
        simp [h2, h3, hin, h4, hl]
      · have h4 : ¬k = l := by omega
        simp [h2, h3, hin, h4, hl, hk]
    · simp [h2]
  rw [Finset.sum_congr rfl h1, Finset.sum_ite_eq' (Finset.range n) k]
  simp [hk]

theorem orthoCols_kron {A B : Mat} (hA : orthoCols A) (hB : orthoCols B)
    (hBr : 0 < B.rows) : orthoCols (kron A B) := by
  intro k l hk hl
  simp only [kron] at hk hl ⊢
  have hBc : 0 < B.cols := by
    rcases Nat.eq_zero_or_pos B.cols with h | h
    · rw [h, Nat.mul_zero] at hk; omega
    · exact h
  rw [sum_range_mul_eq_double]
  have h1 : ∀ p ∈ Finset.range A.rows, ∀ q ∈ Finset.range B.rows,
      (starRingEnd ℂ) (A.entry ((B.rows * p + q) / B.rows) (k / B.cols) *
          B.entry ((B.rows * p + q) % B.rows) (k % B.cols)) *
        (A.entry ((B.rows * p + q) / B.rows) (l / B.cols) *
          B.entry ((B.rows * p + q) % B.rows) (l % B.cols)) =
      ((starRingEnd ℂ) (A.entry p (k / B.cols)) * A.entry p (l / B.cols)) *
        ((starRingEnd ℂ) (B.entry q (k % B.cols)) * B.entry q (l % B.cols)) := by
    intro p _ q hq
    have hq' : q < B.rows := Finset.mem_range.mp hq
    have hdiv : (B.rows * p + q) / B.rows = p := by
      rw [Nat.mul_add_div hBr, Nat.div_eq_of_lt hq', Nat.add_zero]
    have hmod : (B.rows * p + q) % B.rows = q := by
      rw [Nat.mul_add_mod, Nat.mod_eq_of_lt hq']
    rw [hdiv, hmod, map_mul]
    ring
  calc
    ∑ p ∈ Finset.range A.rows, ∑ q ∈ Finset.range B.rows,
        (starRingEnd ℂ) ((kron A B).entry (B.rows * p + q) k) *
          (kron A B).entry (B.rows * p + q) l
      = ∑ p ∈ Finset.range A.rows, ∑ q ∈ Finset.range B.rows,
          ((starRingEnd ℂ) (A.entry p (k / B.cols)) * A.entry p (l / B.cols)) *
            ((starRingEnd ℂ) (B.entry q (k % B.cols)) * B.entry q (l % B.cols)) := by
        refine Finset.sum_congr rfl fun p hp => Finset.sum_congr rfl fun q hq => ?_
        simpa [kron] using h1 p hp q hq
    _ = (∑ p ∈ Finset.range A.rows,
          (starRingEnd ℂ) (A.entry p (k / B.cols)) * A.entry p (l / B.cols)) *
        (∑ q ∈ Finset.range B.rows,
          (starRingEnd ℂ) (B.entry q (k % B.cols)) * B.entry q (l % B.cols)) := by
        rw [Finset.sum_mul_sum]
    _ = (if k / B.cols = l / B.cols then 1 else 0) *
        (if k % B.cols = l % B.cols then 1 else 0) := by
        rw [hA _ _ (Nat.div_lt_of_lt_mul (by rw [Nat.mul_comm] at hk; exact hk))
              (Nat.div_lt_of_lt_mul (by rw [Nat.mul_comm] at hl; exact hl)),
           hB _ _ (Nat.mod_lt _ hBc) (Nat.mod_lt _ hBc)]
    _ = if k = l then 1 else 0 := by
        have hkd := Nat.div_add_mod k B.cols
        have hld := Nat.div_add_mod l B.cols
        by_cases h2 : k = l
        · simp [h2]
        · by_cases h4 : k / B.cols = l / B.cols
          · have h5 : ¬k % B.cols = l % B.cols := by
              intro hb
              rw [h4, hb] at hkd
              omega
            simp [h2, h4, h5]
          · simp [h2, h4]

theorem orthoCols_foldl_kron {γ : Type} (f : γ → Mat)
    (hf : ∀ x, orthoCols (f x) ∧ 0 < (f x).rows) :
    ∀ (l : List γ) (base : Mat), orthoCols base →
      orthoCols (l.foldl (fun acc x => kron acc (f x)) base) := by
  intro l
  induction l with
  | nil => intro base hb; simpa using hb
  | cons x rest ih =>
    intro base hb
    simp only [List.foldl_cons]
    exact ih _ (orthoCols_kron hb (hf x).1 (hf x).2)

theorem orthoCols_twoQubitSparseLoop {g : Mat} (hg : orthoCols g) (hgr : 0 < g.rows)
    (mi : ℕ) : ∀ (l : List ℕ) (acc : Mat), orthoCols acc →
      orthoCols (twoQubitSparseLoop g mi l acc) := by
  intro l
  induction l with
  | nil => intro acc ha; simpa [twoQubitSparseLoop] using ha
  | cons i rest ih =>
    intro acc ha
    rw [twoQubitSparseLoop]
    by_cases h2 : i = mi
    · rw [if_pos h2]; exact orthoCols_kron ha hg hgr
    · rw [if_neg h2]
      exact ih _ (orthoCols_kron ha (orthoCols_idMat 2) (by simp [idMat]))

theorem conj_exp_mul_self {z : ℂ} (hz : (starRingEnd ℂ) z = -z) :
    (starRingEnd ℂ) (Complex.exp z) * Complex.exp z = 1 := by
  rw [← Complex.exp_conj, hz, ← Complex.exp_add, neg_add_cancel, Complex.exp_zero]

theorem cos_sin_comb (x : ℝ) :
    (Real.cos x : ℂ) * (Real.cos x : ℂ) + (Real.sin x : ℂ) * (Real.sin x : ℂ) = 1 := by
  have h : Real.cos x * Real.cos x + Real.sin x * Real.sin x = 1 := by
    have h2 := Real.sin_sq_add_cos_sq x
    nlinarith [h2]
  exact_mod_cast h

theorem orthoCols_pauli_x : orthoCols pauli_x := by
  intro k l hk hl
  simp only [pauli_x, mkMat] at hk hl ⊢
  interval_cases k <;> interval_cases l <;>
    simp [Finset.sum_range_succ]

theorem orthoCols_pauli_y : orthoCols pauli_y := by
  intro k l hk hl
  simp only [pauli_y, mkMat] at hk hl ⊢
  interval_cases k <;> interval_cases l <;>
    simp [Finset.sum_range_succ, Complex.conj_I, Complex.I_mul_I]

theorem orthoCols_pauli_z : orthoCols pauli_z := by
  intro k l hk hl
  simp only [pauli_z, mkMat] at hk hl ⊢
  interval_cases k <;> interval_cases l <;>
    simp [Finset.sum_range_succ]

theorem sqrt_two_sq_complex :
    ((Real.sqrt 2 : ℝ) : ℂ) * ((Real.sqrt 2 : ℝ) : ℂ) = 2 := by
  rw [← Complex.ofReal_mul, Real.mul_self_sqrt (by norm_num)]
  norm_num

theorem sqrt_two_complex_ne_zero : ((Real.sqrt 2 : ℝ) : ℂ) ≠ 0 := by
  rw [Ne, Complex.ofReal_eq_zero]
  positivity

theorem orthoCols_hadamard : orthoCols hadamard := by
  intro k l hk hl
  simp only [hadamard, mkMat] at hk hl ⊢
  interval_cases k <;> interval_cases l <;>
    · simp only [Finset.sum_range_succ, Finset.sum_range_zero, List.getD_cons_zero,
        List.getD_cons_succ, map_div₀, map_one, map_neg, Complex.conj_ofReal, zero_add]
      norm_num
      first
      | ring1
      | (field_simp; linear_combination (-1 : ℂ) * sqrt_two_sq_complex)

theorem orthoCols_t_gate : orthoCols t_gate := by
  intro k l hk hl
  simp only [t_gate, mkMat] at hk hl ⊢
  have h1 : (starRingEnd ℂ) (Complex.exp (Complex.I * ((Real.pi : ℂ) / 4))) *
      Complex.exp (Complex.I * ((Real.pi : ℂ) / 4)) = 1 := by
    apply conj_exp_mul_self
    have h2 : ((Real.pi : ℂ) / 4) = ((Real.pi / 4 : ℝ) : ℂ) := by push_cast; ring
    rw [h2, map_mul, Complex.conj_I, Complex.conj_ofReal]
    ring
  interval_cases k <;> interval_cases l <;>
    simp [Finset.sum_range_succ, h1]

theorem orthoCols_s_gate : orthoCols s_gate := by
  intro k l hk hl
  simp only [s_gate, mkMat] at hk hl ⊢
  interval_cases k <;> interval_cases l <;>
    simp [Finset.sum_range_succ, Complex.conj_I, Complex.I_mul_I]

theorem orthoCols_rx (θ : ℝ) : orthoCols (rx θ) := by
  intro k l hk hl
  simp only [rx, mkMat] at hk hl ⊢
  interval_cases k <;> interval_cases l <;>
    · simp only [Finset.sum_range_succ, Finset.sum_range_zero, List.getD_cons_zero,
        List.getD_cons_succ, map_mul, map_neg, Complex.conj_I, Complex.conj_ofReal,
        map_one, map_zero, zero_add]
      norm_num
      first
      | ring1
      | linear_combination Complex.sin_sq_add_cos_sq ((θ : ℂ)/2)
      | linear_combination Complex.sin_sq_add_cos_sq ((θ : ℂ)/2) -
          (Complex.sin ((θ : ℂ)/2))^2 * Complex.I_mul_I
      | linear_combination Complex.sin_sq_add_cos_sq ((θ : ℂ)/2) +
          (Complex.sin ((θ : ℂ)/2))^2 * Complex.I_mul_I

theorem orthoCols_ry (θ : ℝ) : orthoCols (ry θ) := by
  intro k l hk hl
  simp only [ry, mkMat] at hk hl ⊢
  interval_cases k <;> interval_cases l <;>
    · simp only [Finset.sum_range_succ, Finset.sum_range_zero, List.getD_cons_zero,
        List.getD_cons_succ, map_neg, Complex.conj_ofReal, map_one, map_zero, zero_add]
      norm_num
      first
      | ring1
      | linear_combination Complex.sin_sq_add_cos_sq ((θ : ℂ)/2)

theorem orthoCols_rz (θ : ℝ) : orthoCols (rz θ) := by
  intro k l hk hl
  simp only [rz, mkMat] at hk hl ⊢
  have hconj : (starRingEnd ℂ) ((θ : ℂ) / 2) = (θ : ℂ) / 2 := by
    rw [show ((θ : ℂ) / 2) = ((θ/2 : ℝ) : ℂ) by push_cast; ring, Complex.conj_ofReal]
  have h1 : (starRingEnd ℂ) (Complex.exp (-(Complex.I * ((θ : ℂ) / 2)))) *
      Complex.exp (-(Complex.I * ((θ : ℂ) / 2))) = 1 := by
    apply conj_exp_mul_self
    rw [map_neg, map_mul, Complex.conj_I, hconj]
    ring
  have h2 : (starRingEnd ℂ) (Complex.exp (Complex.I * ((θ : ℂ) / 2))) *
      Complex.exp (Complex.I * ((θ : ℂ) / 2)) = 1 := by
    apply conj_exp_mul_self
    rw [map_mul, Complex.conj_I, hconj]
    ring
  interval_cases k <;> interval_cases l <;>
    simp [Finset.sum_range_succ, h1, h2]

theorem orthoCols_phase (φ : ℝ) : orthoCols (phase φ) := by
  intro k l hk hl
  simp only [phase, mkMat] at hk hl ⊢
  have h1 : (starRingEnd ℂ) (Complex.exp (Complex.I * ((φ : ℝ) : ℂ))) *
      Complex.exp (Complex.I * ((φ : ℝ) : ℂ)) = 1 := by
    apply conj_exp_mul_self
    rw [map_mul, Complex.conj_I, Complex.conj_ofReal]
    ring
  interval_cases k <;> interval_cases l <;>
    simp [Finset.sum_range_succ, h1]

theorem orthoCols_cnot : orthoCols cnot := by
  intro k l hk hl
  simp only [cnot, mkMat] at hk hl ⊢
  interval_cases k <;> interval_cases l <;>
    simp [Finset.sum_range_succ]

theorem orthoCols_cz : orthoCols cz := by
  intro k l hk hl
  simp only [cz, mkMat] at hk hl ⊢
  interval_cases k <;> interval_cases l <;>
    simp [Finset.sum_range_succ]

theorem orthoCols_swap : orthoCols swap := by
  intro k l hk hl
  simp only [swap, mkMat] at hk hl ⊢
  interval_cases k <;> interval_cases l <;>
    simp [Finset.sum_range_succ]

theorem orthoCols_toffoli : orthoCols toffoli := by
  intro k l hk hl
  simp only [toffoli, idMat] at hk hl ⊢
  interval_cases k <;> interval_cases l <;>
    simp [Finset.sum_range_succ]

theorem sum_conj_mul_matVec {A : Mat} {v w : Vec} (hA : orthoCols A)
    (h : matVec A v = .ok w) :
    ∑ i ∈ Finset.range w.size, (starRingEnd ℂ) (w.entry i) * w.entry i =
      ∑ j ∈ Finset.range v.size, (starRingEnd ℂ) (v.entry j) * v.entry j := by
  by_cases hcols : A.cols = v.size
  · rw [matVec, if_pos hcols] at h
    injection h with h
    subst h
    simp only []
    have hguard : ∀ i ∈ Finset.range A.rows,
        (starRingEnd ℂ) (if i < A.rows then ∑ j ∈ Finset.range A.cols,
            A.entry i j * v.entry j else 0) *
          (if i < A.rows then ∑ j ∈ Finset.range A.cols, A.entry i j * v.entry j else 0) =
        (starRingEnd ℂ) (∑ j ∈ Finset.range A.cols, A.entry i j * v.entry j) *
          (∑ j ∈ Finset.range A.cols, A.entry i j * v.entry j) := by
      intro i hi
      rw [if_pos (Finset.mem_range.mp hi)]
    rw [Finset.sum_congr rfl hguard]
    calc
      ∑ i ∈ Finset.range A.rows,
          (starRingEnd ℂ) (∑ j ∈ Finset.range A.cols, A.entry i j * v.entry j) *
            (∑ j ∈ Finset.range A.cols, A.entry i j * v.entry j)
        = ∑ i ∈ Finset.range A.rows, ∑ j ∈ Finset.range A.cols, ∑ l ∈ Finset.range A.cols,
            ((starRingEnd ℂ) (v.entry j) * v.entry l) *
              ((starRingEnd ℂ) (A.entry i j) * A.entry i l) := by
          refine Finset.sum_congr rfl fun i _ => ?_
          rw [map_sum, Finset.sum_mul_sum]
          refine Finset.sum_congr rfl fun j _ => Finset.sum_congr rfl fun l _ => ?_
          rw [map_mul]
          ring
      _ = ∑ j ∈ Finset.range A.cols, ∑ l ∈ Finset.range A.cols,
            ((starRingEnd ℂ) (v.entry j) * v.entry l) *
              (∑ i ∈ Finset.range A.rows, (starRingEnd ℂ) (A.entry i j) * A.entry i l) := by
          rw [Finset.sum_comm]
          refine Finset.sum_congr rfl fun j _ => ?_
          rw [Finset.sum_comm]
          refine Finset.sum_congr rfl fun l _ => ?_
          rw [Finset.mul_sum]
      _ = ∑ j ∈ Finset.range A.cols, ∑ l ∈ Finset.range A.cols,
            ((starRingEnd ℂ) (v.entry j) * v.entry l) * (if j = l then 1 else 0) := by
          refine Finset.sum_congr rfl fun j hj => Finset.sum_congr rfl fun l hl => ?_
          rw [hA j l (Finset.mem_range.mp hj) (Finset.mem_range.mp hl)]
      _ = ∑ j ∈ Finset.range A.cols, (starRingEnd ℂ) (v.entry j) * v.entry j := by
          refine Finset.sum_congr rfl fun j hj => ?_
          simp only [mul_ite, mul_one, mul_zero]
          rw [Finset.sum_ite_eq (Finset.range A.cols) j
            (fun l => (starRingEnd ℂ) (v.entry j) * v.entry l)]
          simp [Finset.mem_range.mp hj]
      _ = ∑ j ∈ Finset.range v.size, (starRingEnd ℂ) (v.entry j) * v.entry j := by
          rw [hcols]
  · rw [matVec, if_neg hcols] at h
    exact absurd h (by simp)

theorem matVec_sumNormSq {A : Mat} {v w : Vec} (hA : orthoCols A)
    (h : matVec A v = .ok w) : sumNormSq w = sumNormSq v := by
  have hC := sum_conj_mul_matVec hA h
  have hw : ((sumNormSq w : ℝ) : ℂ) =
      ∑ i ∈ Finset.range w.size, (starRingEnd ℂ) (w.entry i) * w.entry i := by
    rw [sumNormSq, Complex.ofReal_sum]
    exact Finset.sum_congr rfl fun i _ => Complex.normSq_eq_conj_mul_self
  have hv : ((sumNormSq v : ℝ) : ℂ) =
      ∑ j ∈ Finset.range v.size, (starRingEnd ℂ) (v.entry j) * v.entry j := by
    rw [sumNormSq, Complex.ofReal_sum]
    exact Finset.sum_congr rfl fun i _ => Complex.normSq_eq_conj_mul_self
  exact Complex.ofReal_inj.mp (hw.trans (hC.trans hv.symm))

/-- Every matrix the gate library can return has orthonormal columns and
positive shape: all library gates are unitary. -/
theorem get_gate_orthoCols {name : String} {ps : List (String × ℝ)} {M : Mat}
    (h : get_gate name ps = .ok M) : orthoCols M ∧ 0 < M.rows := by
  unfold get_gate at h
  by_cases h1 : name = "X"
  · rw [if_pos h1] at h; injection h with h; subst h
    exact ⟨orthoCols_pauli_x, by norm_num [pauli_x, mkMat]⟩
  rw [if_neg h1] at h
  by_cases h2 : name = "Y"
  · rw [if_pos h2] at h; injection h with h; subst h
    exact ⟨orthoCols_pauli_y, by norm_num [pauli_y, mkMat]⟩
  rw [if_neg h2] at h
  by_cases h3 : name = "Z"
  · rw [if_pos h3] at h; injection h with h; subst h
    exact ⟨orthoCols_pauli_z, by norm_num [pauli_z, mkMat]⟩
  rw [if_neg h3] at h
  by_cases h4 : name = "H"
  · rw [if_pos h4] at h; injection h with h; subst h
    exact ⟨orthoCols_hadamard, by norm_num [hadamard]⟩
  rw [if_neg h4] at h
  by_cases h5 : name = "T"
  · rw [if_pos h5] at h; injection h with h; subst h
    exact ⟨orthoCols_t_gate, by norm_num [t_gate, mkMat]⟩
  rw [if_neg h5] at h
  by_cases h6 : name = "S"
  · rw [if_pos h6] at h; injection h with h; subst h
    exact ⟨orthoCols_s_gate, by norm_num [s_gate, mkMat]⟩
  rw [if_neg h6] at h
  by_cases h7 : name = "CNOT"
  · rw [if_pos h7] at h; injection h with h; subst h
    exact ⟨orthoCols_cnot, by norm_num [cnot, mkMat]⟩
  rw [if_neg h7] at h
  by_cases h8 : name = "CZ"
  · rw [if_pos h8] at h; injection h with h; subst h
    exact ⟨orthoCols_cz, by norm_num [cz, mkMat]⟩
  rw [if_neg h8] at h
  by_cases h9 : name = "SWAP"
  · rw [if_pos h9] at h; injection h with h; subst h
    exact ⟨orthoCols_swap, by norm_num [swap, mkMat]⟩
  rw [if_neg h9] at h
  by_cases h10 : name = "TOFFOLI"
  · rw [if_pos h10] at h; injection h with h; subst h
    exact ⟨orthoCols_toffoli, by norm_num [toffoli]⟩
  rw [if_neg h10] at h
  by_cases h11 : name = "RX"
  · rw [if_pos h11] at h; injection h with h; subst h
    exact ⟨orthoCols_rx _, by norm_num [rx, mkMat]⟩
  rw [if_neg h11] at h
  by_cases h12 : name = "RY"
  · rw [if_pos h12] at h; injection h with h; subst h
    exact ⟨orthoCols_ry _, by norm_num [ry, mkMat]⟩
  rw [if_neg h12] at h
  by_cases h13 : name = "RZ"
  · rw [if_pos h13] at h; injection h with h; subst h
    exact ⟨orthoCols_rz _, by norm_num [rz, mkMat]⟩
  rw [if_neg h13] at h
  by_cases h14 : name = "PHASE"
  · rw [if_pos h14] at h; injection h with h; subst h
    exact ⟨orthoCols_phase _, by norm_num [phase, mkMat]⟩
  rw [if_neg h14] at h
  exact absurd h (by simp)

theorem orthoCols_singleQubitBuild {g : Mat} (hg : orthoCols g) (hgr : 0 < g.rows)
    (q n : ℕ) : orthoCols (singleQubitBuild g q n) := by
  unfold singleQubitBuild
  apply orthoCols_foldl_kron (fun i => if i = q then g else idMat 2)
  · intro x
    by_cases h2 : x = q
    · rw [if_pos h2]; exact ⟨hg, hgr⟩
    · rw [if_neg h2]; exact ⟨orthoCols_idMat 2, by simp [idMat]⟩
  · by_cases h2 : q = 0
    · rw [if_pos h2]; exact hg
    · rw [if_neg h2]; exact orthoCols_idMat 2

theorem orthoCols_apply_single {g : Mat} (hg : orthoCols g) (hgr : 0 < g.rows)
    (q n : ℕ) (useSparse : Bool) : orthoCols (apply_single_qubit_gate g q n useSparse) := by
  rw [apply_single_qubit_gate, ite_self]
  exact orthoCols_singleQubitBuild hg hgr q n

theorem orthoCols_apply_two {g full : Mat} (hg : orthoCols g) (hgr : 0 < g.rows)
    {c t n : ℕ} {useSparse : Bool}
    (h : apply_two_qubit_gate g c t n useSparse = .ok full) : orthoCols full := by
  unfold apply_two_qubit_gate at h
  by_cases hadj : Nat.dist c t ≠ 1
  · rw [if_pos hadj] at h
    exact absurd h (by simp)
  · rw [if_neg hadj] at h
    injection h with h
    subst h
    have hid1 : orthoCols (idMat 1) := orthoCols_idMat 1
    have hstep : ∀ (l : List ℕ) (base : Mat), orthoCols base →
        orthoCols (l.foldl (fun acc _ => kron acc (idMat 2)) base) := by
      intro l base hb
      exact orthoCols_foldl_kron (fun _ => idMat 2)
        (fun _ => ⟨orthoCols_idMat 2, by simp [idMat]⟩) l base hb
    cases useSparse with
    | false =>
      rw [if_neg (by simp)]
      unfold twoQubitDenseBuild
      exact hstep _ _ (orthoCols_kron (hstep _ _ hid1) hg hgr)
    | true =>
      rw [if_pos rfl]
      unfold twoQubitSparseBuild
      exact hstep _ _ (orthoCols_twoQubitSparseLoop hg hgr _ _ _ hid1)

/-- Every successful `run` gate step preserves the sum of squared
magnitudes: each expanded operator is an isometry. -/
theorem runStep_sumNormSq {useSparse : Bool} {n : ℕ} {v w : Vec} {g : GateNode}
    (h : runStep useSparse n v g = .ok w) : sumNormSq w = sumNormSq v := by
  unfold runStep at h
  cases hg : get_gate g.gate_name g.params with
  | error e => rw [hg] at h; exact absurd h (by simp)
  | ok gm =>
    rw [hg] at h
    dsimp only [] at h
    obtain ⟨hgo, hgr⟩ := get_gate_orthoCols hg
    by_cases h1 : g.qubits.length = 1
    · rw [if_pos h1] at h
      exact matVec_sumNormSq (orthoCols_apply_single hgo hgr _ n useSparse) h
    · rw [if_neg h1] at h
      by_cases h2 : g.qubits.length = 2
      · rw [if_pos h2] at h
        cases hfull : apply_two_qubit_gate gm (g.qubits.getD 0 0) (g.qubits.getD 1 0)
            n useSparse with
        | error e => rw [hfull] at h; exact absurd h (by simp)
        | ok full =>
          rw [hfull] at h
          exact matVec_sumNormSq (orthoCols_apply_two hgo hgr hfull) h
      · rw [if_neg h2] at h
        exact absurd h (by simp)

/-- Norm preservation along the whole gate loop: the state returned by
`runGates` (also on a run aborted by an error: the state then reflects the
gates already processed) has the same norm as the initial state. -/
theorem runGates_sumNormSq (useSparse : Bool) (n : ℕ) :
    ∀ (gates : List GateNode) (v : Vec),
      sumNormSq (runGates useSparse n v gates).1 = sumNormSq v := by
  intro gates
  induction gates with
  | nil => intro v; rfl
  | cons g rest ih =>
    intro v
    rw [runGates]
    cases hs : runStep useSparse n v g with
    | ok w => rw [ih w, runStep_sumNormSq hs]
    | error e => rfl

theorem sumNormSq_basisVec {n k : ℕ} (hk : k < 2 ^ n) : sumNormSq (basisVec n k) = 1 := by
  unfold sumNormSq basisVec
  simp only []
  have h1 : ∀ i ∈ Finset.range (2 ^ n),
      Complex.normSq (if i = k ∧ i < 2 ^ n then 1 else 0) =
        if i = k then 1 else 0 := by
    intro i hi
    have hin : i < 2 ^ n := Finset.mem_range.mp hi
    by_cases h2 : i = k <;> simp [h2, hin, hk]
  rw [Finset.sum_congr rfl h1, Finset.sum_ite_eq' (Finset.range (2 ^ n)) k]
  simp [hk]

/-! ### Properties of the optimizer rules -/

theorem cancelAux_eq_spec (gates : List GateNode) :
    ∀ i, cancelAux gates i = cancelInverseSpec (gates.drop i) := by
  have key : ∀ m i, gates.length - i ≤ m →
      cancelAux gates i = cancelInverseSpec (gates.drop i) := by
    intro m
    induction m with
    | zero =>
      intro i hi
      rw [cancelAux, dif_neg (by omega), List.drop_eq_nil_of_le (by omega)]
      rfl
    | succ m ih =>
      intro i hi
      rw [cancelAux]
      by_cases h : i < gates.length
      · rw [dif_pos h]
        have hdrop : gates.drop i = gates.getD i default :: gates.drop (i + 1) := by
          rw [List.getD_eq_getElem gates default h]
          exact List.drop_eq_getElem_cons h
        by_cases hc : i + 1 < gates.length ∧
            (gates.getD i default).gate_name ∈ selfInverseNames ∧
            (gates.getD (i + 1) default).gate_name = (gates.getD i default).gate_name ∧
            (gates.getD i default).qubits = (gates.getD (i + 1) default).qubits
        · rw [if_pos hc]
          have hdrop2 : gates.drop (i + 1) =
              gates.getD (i + 1) default :: gates.drop (i + 2) := by
            rw [List.getD_eq_getElem gates default hc.1]
            exact List.drop_eq_getElem_cons hc.1
          rw [hdrop, hdrop2]
          simp only [cancelInverseSpec]
          rw [if_pos ⟨hc.2.1, hc.2.2.1, hc.2.2.2⟩]
          exact ih (i + 2) (by omega)
        · rw [if_neg hc]
          by_cases h2 : i + 1 < gates.length
          · have hdrop2 : gates.drop (i + 1) =
                gates.getD (i + 1) default :: gates.drop (i + 2) := by
              rw [List.drop_eq_getElem_cons h2, List.getD_eq_getElem gates default h2]
            rw [hdrop, hdrop2]
            simp only [cancelInverseSpec]
            rw [if_neg (by tauto)]
            rw [← hdrop2, ih (i + 1) (by omega)]
          · have hdrop2 : gates.drop (i + 1) = [] :=
              List.drop_eq_nil_of_le (by omega)
            rw [hdrop, hdrop2, ih (i + 1) (by omega), hdrop2]
            rfl
      · rw [dif_neg h, List.drop_eq_nil_of_le (by omega)]
        rfl
  intro i
  exact key gates.length i (by omega)

theorem scanRun_eq (gates : List GateNode) (g : GateNode) :
    ∀ j total,
      (scanRun gates g j total).1 =
          j + ((gates.drop j).takeWhile (sameRunB g)).length ∧
      (scanRun gates g j total).2 =
          total + (((gates.drop j).takeWhile (sameRunB g)).map theta).sum ∧
      gates.drop (scanRun gates g j total).1 = (gates.drop j).dropWhile (sameRunB g) := by
  have key : ∀ m j total, gates.length - j ≤ m →
      (scanRun gates g j total).1 =
        j + ((gates.drop j).takeWhile (sameRunB g)).length ∧
      (scanRun gates g j total).2 =
        total + (((gates.drop j).takeWhile (sameRunB g)).map theta).sum ∧
      gates.drop (scanRun gates g j total).1 = (gates.drop j).dropWhile (sameRunB g) := by
    intro m
    induction m with
    | zero =>
      intro j total hj
      have hd : gates.drop j = [] := List.drop_eq_nil_of_le (by omega)
      rw [scanRun, dif_neg (by omega)]
      simp [hd]
    | succ m ih =>
      intro j total hj
      rw [scanRun]
      by_cases hc : j < gates.length ∧
          (gates.getD j default).gate_name = g.gate_name ∧
          (gates.getD j default).qubits = g.qubits
      · rw [dif_pos hc]
        obtain ⟨h1, h2, h3⟩ := hc
        have hdrop : gates.drop j = gates.getD j default :: gates.drop (j + 1) := by
          rw [List.getD_eq_getElem gates default h1]
          exact List.drop_eq_getElem_cons h1
        have hp : sameRunB g (gates.getD j default) = true := by
          simp only [sameRunB, Bool.and_eq_true, beq_iff_eq]
          exact ⟨h2, h3⟩
        obtain ⟨e1, e2, e3⟩ := ih (j + 1) (total + theta (gates.getD j default)) (by omega)
        refine ⟨?_, ?_, ?_⟩
        · rw [e1, hdrop, List.takeWhile_cons_of_pos hp]
          simp only [List.length_cons]
          omega
        · rw [e2, hdrop, List.takeWhile_cons_of_pos hp]
          simp only [List.map_cons, List.sum_cons]
          ring
        · rw [e3, hdrop, List.dropWhile_cons_of_pos hp]
      · rw [dif_neg hc]
        by_cases h1 : j < gates.length
        · have hdrop : gates.drop j = gates.getD j default :: gates.drop (j + 1) := by
            rw [List.getD_eq_getElem gates default h1]
            exact List.drop_eq_getElem_cons h1
          have hp : ¬sameRunB g (gates.getD j default) = true := by
            simp only [sameRunB, Bool.and_eq_true, beq_iff_eq]
            tauto
          refine ⟨?_, ?_, ?_⟩ <;>
            rw [hdrop] <;>
            simp [List.takeWhile_cons_of_neg (by simpa using hp),
              List.dropWhile_cons_of_neg (by simpa using hp)]
        · have hd : gates.drop j = [] := List.drop_eq_nil_of_le (by omega)
          refine ⟨?_, ?_, ?_⟩ <;> simp [hd]
  intro j total
  exact key gates.length j total (by omega)

theorem mergeAux_eq_spec (gates : List GateNode) :
    ∀ i, mergeAux gates i = mergeRotationsSpec (gates.drop i) := by
  have key : ∀ m i, gates.length - i ≤ m →
      mergeAux gates i = mergeRotationsSpec (gates.drop i) := by
    intro m
    induction m with
    | zero =>
      intro i hi
      rw [mergeAux, dif_neg (by omega), List.drop_eq_nil_of_le (by omega)]
      simp [mergeRotationsSpec]
    | succ m ih =>
      intro i hi
      rw [mergeAux]
      by_cases h : i < gates.length
      · rw [dif_pos h]
        have hdrop : gates.drop i = gates.getD i default :: gates.drop (i + 1) := by
          rw [List.getD_eq_getElem gates default h]
          exact List.drop_eq_getElem_cons h
        obtain ⟨e1, e2, e3⟩ :=
          scanRun_eq gates (gates.getD i default) (i + 1) (theta (gates.getD i default))
        by_cases hrot : (gates.getD i default).gate_name ∈ rotationNames ∧
            (gates.getD i default).qubits.length = 1
        · rw [if_pos hrot, hdrop]
          simp only [mergeRotationsSpec]
          rw [if_pos hrot]
          have hscan1 : (scanRun gates (gates.getD i default) (i + 1)
              (theta (gates.getD i default))).1 ≥ i + 1 :=
            scanRun_fst_ge gates (gates.getD i default) (i + 1) _
          have htail : mergeAux gates (scanRun gates (gates.getD i default) (i + 1)
              (theta (gates.getD i default))).1 =
              mergeRotationsSpec ((gates.drop (i + 1)).dropWhile
                (sameRunB (gates.getD i default))) := by
            rw [← e3]
            exact ih _ (by omega)
          rw [htail, e2]
        · rw [if_neg hrot, hdrop]
          simp only [mergeRotationsSpec]
          rw [if_neg hrot, ih (i + 1) (by omega)]
      · rw [dif_neg h, List.drop_eq_nil_of_le (by omega)]
        simp [mergeRotationsSpec]
  intro i
  exact key gates.length i (by omega)

/-- The depth-independent view of a gate record: name, targets, parameters. -/
def stripGate (g : GateNode) : String × List ℕ × List (String × ℝ) :=
  (g.gate_name, g.qubits, g.params)

theorem commutePass_stripGate :
    ∀ l : List GateNode, (commutePass l).1.map stripGate = l.map stripGate := by
  intro l
  induction l using commutePass.induct with
  | case1 => simp [commutePass]
  | case2 g => simp [commutePass]
  | case3 g1 g2 rest hc ih =>
    simp only [commutePass, if_pos hc, List.map_cons] at ih ⊢
    rw [ih]
    rfl
  | case4 g1 g2 rest hc ih =>
    simp only [commutePass, if_neg hc, List.map_cons] at ih ⊢
    rw [ih]

theorem commuteLoop_stripGate :
    ∀ l : List GateNode, (commuteLoop l).map stripGate = l.map stripGate := by
  have key : ∀ m l, sumDepth l ≤ m →
      (commuteLoop l).map stripGate = l.map stripGate := by
    intro m
    induction m with
    | zero =>
      intro l hl
      rw [commuteLoop]
      have hc : ¬(commutePass l).2 = true := by
        intro hc
        have := commutePass_sumDepth_lt l hc
        omega
      rw [dif_neg hc]
      exact commutePass_stripGate l
    | succ m ih =>
      intro l hl
      rw [commuteLoop]
      by_cases hc : (commutePass l).2 = true
      · rw [dif_pos hc]
        have hlt := commutePass_sumDepth_lt l hc
        rw [ih (commutePass l).1 (by omega)]
        exact commutePass_stripGate l
      · rw [dif_neg hc]
        exact commutePass_stripGate l
  intro l
  exact key (sumDepth l) l (le_refl _)

theorem runStep_stripGate_congr {useSparse : Bool} {n : ℕ} {v : Vec} {g1 g2 : GateNode}
    (h : stripGate g1 = stripGate g2) : runStep useSparse n v g1 = runStep useSparse n v g2 := by
  obtain ⟨hn, hq, hp⟩ : g1.gate_name = g2.gate_name ∧ g1.qubits = g2.qubits ∧
      g1.params = g2.params := by
    unfold stripGate at h
    exact ⟨congrArg Prod.fst h, congrArg (Prod.fst ∘ Prod.snd) h,
      congrArg (Prod.snd ∘ Prod.snd) h⟩
  unfold runStep
  rw [hn, hq, hp]

theorem runGates_stripGate_congr {useSparse : Bool} {n : ℕ} :
    ∀ (l1 l2 : List GateNode) (v : Vec), l1.map stripGate = l2.map stripGate →
      runGates useSparse n v l1 = runGates useSparse n v l2 := by
  intro l1
  induction l1 with
  | nil =>
    intro l2 v h
    cases l2 with
    | nil => rfl
    | cons g rest => exact absurd h (by simp)
  | cons g1 rest1 ih =>
    intro l2 v h
    cases l2 with
    | nil => exact absurd h (by simp)
    | cons g2 rest2 =>
      simp only [List.map_cons, List.cons.injEq] at h
      rw [runGates, runGates, runStep_stripGate_congr h.1]
      cases runStep useSparse n v g2 with
      | ok w => exact ih rest2 w h.2
      | error e => rfl

theorem cancelInverseSpec_sublist : ∀ l : List GateNode, List.Sublist (cancelInverseSpec l) l := by
  intro l
  induction l using cancelInverseSpec.induct with
  | case1 => simp [cancelInverseSpec]
  | case2 g => simp [cancelInverseSpec]
  | case3 g1 g2 rest hc ih =>
    simp only [cancelInverseSpec, if_pos hc]
    exact ih.trans ((List.sublist_cons_self g2 rest).trans
      (List.sublist_cons_self g1 (g2 :: rest)))
  | case4 g1 g2 rest hc ih =>
    simp only [cancelInverseSpec, if_neg hc]
    exact ih.cons₂ g1

theorem mem_dropWhile_mem {α : Type} (p : α → Bool) :
    ∀ (l : List α) (x : α), x ∈ l.dropWhile p → x ∈ l := by
  intro l
  induction l with
  | nil => intro x hx; simpa [List.dropWhile] using hx
  | cons a rest ih =>
    intro x hx
    by_cases hp : p a
    · rw [List.dropWhile_cons_of_pos hp] at hx
      exact List.mem_cons_of_mem a (ih x hx)
    · rw [List.dropWhile_cons_of_neg (by simpa using hp)] at hx
      exact hx

/-- Every record emitted by `merge_rotations` is either one of the input
records (passed through unmodified) or a freshly built merged rotation gate
whose name, targets and depth come from the first record of its run. -/
theorem mergeRotationsSpec_mem :
    ∀ (l : List GateNode) (h : GateNode), h ∈ mergeRotationsSpec l →
      h ∈ l ∨ ∃ g ∈ l, ∃ v : ℝ,
        h = ⟨g.gate_name, g.qubits, [("theta", v)], g.depth⟩ := by
  intro l
  induction l using mergeRotationsSpec.induct with
  | case1 => intro h hh; exact absurd hh (by simp [mergeRotationsSpec])
  | case2 g rest hrot total hemit ih =>
    intro h hh
    simp only [mergeRotationsSpec, if_pos hrot] at hh
    rw [if_pos (show 1e-10 < |pymod (theta g +
      ((rest.takeWhile (sameRunB g)).map theta).sum) (2 * Real.pi)| from hemit)] at hh
    rcases List.mem_cons.mp hh with h1 | h1
    · right
      exact ⟨g, List.mem_cons_self g rest, _, h1⟩
    · rcases ih h h1 with h2 | ⟨g', hg', v, hv⟩
      · exact Or.inl (List.mem_cons_of_mem g (mem_dropWhile_mem _ rest h h2))
      · exact Or.inr ⟨g', List.mem_cons_of_mem g (mem_dropWhile_mem _ rest g' hg'), v, hv⟩
  | case3 g rest hrot total hemit ih =>
    intro h hh
    simp only [mergeRotationsSpec, if_pos hrot] at hh
    rw [if_neg (show ¬(1e-10 < |pymod (theta g +
      ((rest.takeWhile (sameRunB g)).map theta).sum) (2 * Real.pi)|) from hemit)] at hh
    rcases ih h hh with h2 | ⟨g', hg', v, hv⟩
    · exact Or.inl (List.mem_cons_of_mem g (mem_dropWhile_mem _ rest h h2))
    · exact Or.inr ⟨g', List.mem_cons_of_mem g (mem_dropWhile_mem _ rest g' hg'), v, hv⟩
  | case4 g rest hrot ih =>
    intro h hh
    simp only [mergeRotationsSpec, if_neg hrot] at hh
    rcases List.mem_cons.mp hh with h1 | h1
    · exact Or.inl (List.mem_cons.mpr (Or.inl h1))
    · rcases ih h h1 with h2 | ⟨g', hg', v, hv⟩
      · exact Or.inl (List.mem_cons_of_mem g h2)
      · exact Or.inr ⟨g', List.mem_cons_of_mem g hg', v, hv⟩

/-- `runGates` over a concatenation: an error-free prefix run continues from
its final state. -/
theorem runGates_append_ok {useSparse : Bool} {n : ℕ} :
    ∀ {pre : List GateNode} {v s : Vec} (post : List GateNode),
      runGates useSparse n v pre = (s, none) →
      runGates useSparse n v (pre ++ post) = runGates useSparse n s post := by
  intro pre
  induction pre with
  | nil =>
    intro v s post h
    rw [runGates] at h
    injection h with h1 h2
    subst h1
    rfl
  | cons g rest ih =>
    intro v s post h
    rw [runGates] at h
    rw [List.cons_append, runGates]
    cases hs : runStep useSparse n v g with
    | ok w =>
      rw [hs] at h
      exact ih post h
    | error e =>
      rw [hs] at h
      injection h with h1 h2
      exact absurd h2 (by simp)

/-- The names the gate library recognises. -/
def recognizedNames : List String :=
  ["X", "Y", "Z", "H", "T", "S", "CNOT", "CZ", "SWAP", "TOFFOLI", "RX", "RY", "RZ", "PHASE"]

theorem get_gate_unknown {name : String} (h : name ∉ recognizedNames)
    (ps : List (String × ℝ)) : get_gate name ps = .error (.unknownGate name) := by
  simp only [recognizedNames, List.mem_cons, List.not_mem_nil, or_false] at h
  push_neg at h
  obtain ⟨h1, h2, h3, h4, h5, h6, h7, h8, h9, h10, h11, h12, h13, h14⟩ := h
  rw [get_gate, if_neg h1, if_neg h2, if_neg h3, if_neg h4, if_neg h5, if_neg h6,
    if_neg h7, if_neg h8, if_neg h9, if_neg h10, if_neg h11, if_neg h12, if_neg h13,
    if_neg h14]

/-! ### The basis-index convention of the expansion -/

theorem kron_one_right (A : Mat) : kron A (idMat 1) = A := by
  refine Mat.ext (Nat.mul_one A.rows) (Nat.mul_one A.cols) ?_
  funext i j
  simp [kron, idMat, Nat.div_one, Nat.mod_one]

theorem kron_assoc (A B C : Mat) : kron (kron A B) C = kron A (kron B C) := by
  refine Mat.ext (Nat.mul_assoc _ _ _) (Nat.mul_assoc _ _ _) ?_
  · funext i j
    simp only [kron]
    have h1 : ∀ m : ℕ, m / C.rows / B.rows = m / (B.rows * C.rows) := fun m => by
      rw [Nat.div_div_eq_div_mul, Nat.mul_comm]
    have h2 : ∀ m : ℕ, m % (B.rows * C.rows) / C.rows = m / C.rows % B.rows := fun m => by
      rw [Nat.mul_comm B.rows C.rows, Nat.mod_mul_right_div_self]
    have h3 : ∀ m : ℕ, m % (B.rows * C.rows) % C.rows = m % C.rows := fun m =>
      Nat.mod_mod_of_dvd m (dvd_mul_left C.rows B.rows)
    have h4 : ∀ m : ℕ, m / C.cols / B.cols = m / (B.cols * C.cols) := fun m => by
      rw [Nat.div_div_eq_div_mul, Nat.mul_comm]
    have h5 : ∀ m : ℕ, m % (B.cols * C.cols) / C.cols = m / C.cols % B.cols := fun m => by
      rw [Nat.mul_comm B.cols C.cols, Nat.mod_mul_right_div_self]
    have h6 : ∀ m : ℕ, m % (B.cols * C.cols) % C.cols = m % C.cols := fun m =>
      Nat.mod_mod_of_dvd m (dvd_mul_left C.cols B.cols)
    rw [h1, h2, h3, h4, h5, h6]
    ring

theorem kron_id_id (a b : ℕ) : kron (idMat a) (idMat b) = idMat (a * b) := by
  refine Mat.ext rfl rfl ?_
  · funext i j
    by_cases hb : b = 0
    · subst hb
      simp [kron, idMat]
    · have hb' : 0 < b := Nat.pos_of_ne_zero hb
      have e1 := Nat.div_add_mod i b
      have e2 := Nat.div_add_mod j b
      have hm : i % b < b := Nat.mod_lt i hb'
      simp only [kron, idMat]
      by_cases h1 : i = j
      · subst h1
        by_cases h2 : i < a * b
        · have h3 : i / b < a := Nat.div_lt_of_lt_mul (by rw [Nat.mul_comm] at h2; exact h2)
          simp [h2, h3, hm]
        · have h3 : ¬i / b < a := by
            have h4 : a * b ≤ i := by omega
            have h5 : a ≤ i / b := (Nat.le_div_iff_mul_le hb').mpr h4
            omega
          simp [h2, h3, hm]
      · have h2 : ¬(i / b = j / b ∧ i % b = j % b) := by
          rintro ⟨ha', hb''⟩
          rw [ha', hb''] at e1
          omega
        by_cases h3 : i / b = j / b
        · have h4 : ¬i % b = j % b := fun hb'' => h2 ⟨h3, hb''⟩
          simp only [if_neg (by tauto : ¬(i % b = j % b ∧ i % b < b)),
            if_neg (by tauto : ¬(i = j ∧ i < a * b)), mul_zero]
        · simp only [if_neg (by tauto : ¬(i / b = j / b ∧ i / b < a)),
            if_neg (by tauto : ¬(i = j ∧ i < a * b)), zero_mul]

theorem foldl_kron_id {g : Mat} {q : ℕ} :
    ∀ (m s : ℕ) (base : Mat), (∀ x ∈ List.range' s m, x ≠ q) →
      (List.range' s m).foldl (fun acc i => kron acc (if i = q then g else idMat 2)) base =
        kron base (idMat (2 ^ m)) := by
  intro m
  induction m with
  | zero =>
    intro s base _
    simp [List.range', pow_zero, kron_one_right]
  | succ m ih =>
    intro s base hx
    rw [List.range'_succ, List.foldl_cons]
    have hs : s ≠ q := hx s (by rw [List.mem_range'_1]; omega)
    rw [if_neg hs]
    rw [ih (s + 1) (kron base (idMat 2)) (fun x hxm => hx x (by
      rw [List.mem_range'_1] at hxm ⊢
      omega))]
    rw [kron_assoc, kron_id_id]
    have h2 : 2 * 2 ^ m = 2 ^ (m + 1) := by
      rw [pow_succ]
      ring
    rw [h2]

theorem singleQubitBuild_closed (g : Mat) (q n : ℕ) (hq : q < n) :
    singleQubitBuild g q n =
      if q = 0 then kron g (idMat (2 ^ (n - 1)))
      else kron (kron (idMat (2 ^ q)) g) (idMat (2 ^ (n - 1 - q))) := by
  unfold singleQubitBuild
  by_cases h0 : q = 0
  · rw [if_pos h0, if_pos h0]
    exact foldl_kron_id (n - 1) 1 g (fun x hx => by
      have := List.mem_range'_1.mp hx
      omega)
  · rw [if_neg h0, if_neg h0]
    have hsplit : List.range' 1 (n - 1) =
        (List.range' 1 (q - 1) ++ [q]) ++ List.range' (q + 1) (n - 1 - q) := by
      have e1 : List.range' 1 (q - 1) ++ List.range' q (n - q) = List.range' 1 (n - 1) := by
        calc List.range' 1 (q - 1) ++ List.range' q (n - q)
            = List.range' 1 (q - 1) 1 ++ List.range' (1 + 1 * (q - 1)) (n - q) 1 := by
              rw [show 1 + 1 * (q - 1) = q from by omega]
          _ = List.range' 1 ((n - q) + (q - 1)) 1 := List.range'_append 1 (q - 1) (n - q) 1
          _ = List.range' 1 (n - 1) := by rw [show (n - q) + (q - 1) = n - 1 from by omega]
      have e2 : List.range' q (n - q) = q :: List.range' (q + 1) (n - 1 - q) := by
        have h3 : n - q = (n - 1 - q) + 1 := by omega
        rw [h3, List.range'_succ]
      rw [← e1, e2]
      simp
    rw [hsplit, List.foldl_append, List.foldl_append]
    have hfirst : (List.range' 1 (q - 1)).foldl
        (fun acc i => kron acc (if i = q then g else idMat 2)) (idMat 2) =
        kron (idMat 2) (idMat (2 ^ (q - 1))) :=
      foldl_kron_id (q - 1) 1 (idMat 2) (fun x hx => by
        have := List.mem_range'_1.mp hx
        omega)
    rw [hfirst, kron_id_id]
    have h2q : 2 * 2 ^ (q - 1) = 2 ^ q := by
      have h4 : 2 ^ ((q - 1) + 1) = 2 ^ (q - 1) * 2 := pow_succ 2 (q - 1)
      have h5 : (q - 1) + 1 = q := by omega
      rw [h5] at h4
      rw [h4]
      ring
    rw [h2q, List.foldl_cons, if_pos rfl]
    exact foldl_kron_id (n - 1 - q) (q + 1) _ (fun x hx => by
      have := List.mem_range'_1.mp hx
      omega)

theorem pauli_x_col0 : ∀ p : ℕ, pauli_x.entry p 0 = if p = 1 then 1 else 0 := by
  intro p
  match p with
  | 0 => simp [pauli_x, mkMat]
  | 1 => simp [pauli_x, mkMat]
  | p + 2 =>
    have h1 : [[(0 : ℂ), 1], [1, 0]].getD (p + 2) [] = [] :=
      List.getD_eq_default _ _ (by simp)
    simp [pauli_x, mkMat, h1]

theorem kron_id_col_entry {M : Mat} (hM : ∀ x, M.entry x 0 = if x = 1 then 1 else 0)
    {b : ℕ} (hb : 0 < b) (r : ℕ) :
    (kron M (idMat b)).entry r 0 = if r = b then 1 else 0 := by
  have e1 := Nat.div_add_mod r b
  simp only [kron, idMat, Nat.zero_div, Nat.zero_mod, hM]
  by_cases hr : r = b
  · subst hr
    simp [Nat.div_self hb, Nat.mod_self, hb]
  · have h2 : ¬(r / b = 1 ∧ r % b = 0) := by
      rintro ⟨h3, h4⟩
      rw [h3, h4] at e1
      omega
    by_cases h3 : r / b = 1
    · have h4 : ¬r % b = 0 := fun h5 => h2 ⟨h3, h5⟩
      simp [h3, h4, hr]
    · simp [h3, hr]

theorem kron_id_pauli_x_col {a : ℕ} (ha : 0 < a) :
    ∀ x, (kron (idMat a) pauli_x).entry x 0 = if x = 1 then 1 else 0 := by
  intro x
  have hpx : pauli_x.rows = 2 := rfl
  have e1 := Nat.div_add_mod x 2
  simp only [kron, hpx, idMat, Nat.zero_div, Nat.zero_mod, pauli_x_col0]
  by_cases hx : x = 1
  · subst hx
    norm_num [ha]
  · have h2 : ¬(x / 2 = 0 ∧ x % 2 = 1) := by
      rintro ⟨h3, h4⟩
      omega
    by_cases h3 : x % 2 = 1
    · have h4 : ¬x / 2 = 0 := fun h5 => h2 ⟨h5, h3⟩
      simp [h3, h4, hx]
    · simp [h3, hx]

theorem matVec_basis0 {A : Mat} {n : ℕ} (h : A.cols = 2 ^ n) :
    matVec A (basisVec n 0) =
      .ok ⟨A.rows, fun r => if r < A.rows then A.entry r 0 else 0⟩ := by
  rw [matVec, if_pos (by simp [basisVec, h])]
  congr 1
  refine Vec.ext rfl ?_
  funext r
  dsimp only []
  by_cases hr : r < A.rows
  · rw [if_pos hr, if_pos hr]
    have h0 : (0 : ℕ) ∈ Finset.range A.cols := by
      simp [h]
    rw [Finset.sum_eq_single_of_mem 0 h0]
    · simp [basisVec]
    · intro j _ hj
      simp [basisVec, hj]
  · rw [if_neg hr, if_neg hr]

theorem singleQubitBuild_x_facts (n q : ℕ) (hq : q < n) :
    (singleQubitBuild pauli_x q n).rows = 2 ^ n ∧
    (singleQubitBuild pauli_x q n).cols = 2 ^ n ∧
    ∀ r, (singleQubitBuild pauli_x q n).entry r 0 =
      if r = 2 ^ (n - 1 - q) then 1 else 0 := by
  rw [singleQubitBuild_closed pauli_x q n hq]
  by_cases h0 : q = 0
  · subst h0
    rw [if_pos rfl]
    have hb : (0 : ℕ) < 2 ^ (n - 1) := Nat.pos_pow_of_pos _ (by norm_num)
    have hr : 2 * 2 ^ (n - 1) = 2 ^ n := by
      have h4 : 2 ^ ((n - 1) + 1) = 2 ^ (n - 1) * 2 := pow_succ 2 (n - 1)
      have h5 : (n - 1) + 1 = n := by omega
      rw [h5] at h4
      rw [h4]
      ring
    refine ⟨by simp [kron, idMat, pauli_x, mkMat, hr], by simp [kron, idMat, pauli_x, mkMat, hr],
      fun r => ?_⟩
    have h6 : n - 1 - 0 = n - 1 := by omega
    rw [h6]
    exact kron_id_col_entry pauli_x_col0 hb r
  · rw [if_neg h0]
    have ha : (0 : ℕ) < 2 ^ q := Nat.pos_pow_of_pos _ (by norm_num)
    have hb : (0 : ℕ) < 2 ^ (n - 1 - q) := Nat.pos_pow_of_pos _ (by norm_num)
    have hr : 2 ^ q * 2 * 2 ^ (n - 1 - q) = 2 ^ n := by
      have h4 : 2 ^ q * 2 = 2 ^ (q + 1) := (pow_succ 2 q).symm
      rw [h4, ← pow_add]
      congr 1
      omega
    refine ⟨?_, ?_, fun r => kron_id_col_entry (kron_id_pauli_x_col ha) hb r⟩
    · show 2 ^ q * pauli_x.rows * (idMat (2 ^ (n - 1 - q))).rows = 2 ^ n
      simpa [pauli_x, mkMat, idMat] using hr
    · show 2 ^ q * pauli_x.cols * (idMat (2 ^ (n - 1 - q))).cols = 2 ^ n
      simpa [pauli_x, mkMat, idMat] using hr

theorem runX_eval (n q : ℕ) (hq : q < n) :
    (runGates false n (basisVec n 0) [⟨"X", [q], [], 0⟩]).2 = none ∧
    ∀ j, (runGates false n (basisVec n 0) [⟨"X", [q], [], 0⟩]).1.entry j =
      if j < 2 ^ n then (if j = 2 ^ (n - 1 - q) then 1 else 0) else 0 := by
  obtain ⟨hrows, hcols, hentry⟩ := singleQubitBuild_x_facts n q hq
  have hstep : runStep false n (basisVec n 0) ⟨"X", [q], [], 0⟩ =
      .ok ⟨(singleQubitBuild pauli_x q n).rows,
        fun r => if r < (singleQubitBuild pauli_x q n).rows
          then (singleQubitBuild pauli_x q n).entry r 0 else 0⟩ := by
    rw [runStep]
    rw [show get_gate (GateNode.mk "X" [q] [] 0).gate_name
        (GateNode.mk "X" [q] [] 0).params = .ok pauli_x from rfl]
    dsimp only []
    rw [if_pos (by norm_num)]
    rw [apply_single_qubit_gate, ite_self]
    rw [show (GateNode.mk "X" [q] [] 0).qubits.getD 0 0 = q from rfl]
    exact matVec_basis0 hcols
  have hgoal : runGates false n (basisVec n 0) [⟨"X", [q], [], 0⟩] =
      (⟨(singleQubitBuild pauli_x q n).rows,
        fun r => if r < (singleQubitBuild pauli_x q n).rows
          then (singleQubitBuild pauli_x q n).entry r 0 else 0⟩, none) := by
    have h1 : runGates false n (basisVec n 0) [⟨"X", [q], [], 0⟩] =
        match runStep false n (basisVec n 0) ⟨"X", [q], [], 0⟩ with
        | .ok w => runGates false n w []
        | .error e => (basisVec n 0, some e) := rfl
    rw [h1, hstep]
    rfl
  rw [hgoal]
  refine ⟨rfl, fun j => ?_⟩
  dsimp only []
  rw [hrows, hentry j]

theorem binaryKey_pow (n i p : ℕ) (hi : i < n) (hp : p < n) :
    (binaryKey n (2 ^ (n - 1 - i))).getD p 2 = if p = i then 1 else 0 := by
  have hlen : p <
      ((List.range n).map fun r => 2 ^ (n - 1 - i) / 2 ^ (n - 1 - r) % 2).length := by
    simp [hp]
  rw [binaryKey, List.getD_eq_getElem _ 2 hlen, List.getElem_map, List.getElem_range]
  by_cases hpi : p = i
  · subst hpi
    rw [if_pos rfl, Nat.div_self (Nat.pos_pow_of_pos _ (by norm_num))]
  · rw [if_neg hpi]
    rcases Nat.lt_or_ge p i with hlt | hge
    · have hexp : n - 1 - i < n - 1 - p := by omega
      rw [Nat.div_eq_of_lt (Nat.pow_lt_pow_right (by norm_num) hexp)]
    · have hle : n - 1 - p ≤ n - 1 - i := by omega
      rw [Nat.pow_div hle (by norm_num)]
      have hk : n - 1 - i - (n - 1 - p) = p - i := by omega
      rw [hk]
      have h1 : p - i = (p - i - 1) + 1 := by omega
      rw [h1, pow_succ]
      exact Nat.mul_mod_left _ 2

/-! ### Claim theorems -/

/-- C7: `cancel_inverse` is a single forward pass over the gate list:
whenever two consecutive gates have identical target-qubit lists and the
same name drawn from {X, Y, Z, H, CNOT}, both gates are removed and
scanning resumes after the pair (so pairs that become adjacent only through
an earlier removal in the same pass are not removed — witnessed by the
H X X H example, which keeps both H gates), and all other gates are kept in
order. -/
theorem C7_cancel_inverse_single_pass :
    (∀ gates : List GateNode, cancelInverseGates gates = cancelInverseSpec gates) ∧
    cancelInverseGates
        [⟨"H", [0], [], 0⟩, ⟨"X", [0], [], 0⟩, ⟨"X", [0], [], 0⟩, ⟨"H", [0], [], 0⟩] =
      [⟨"H", [0], [], 0⟩, ⟨"H", [0], [], 0⟩] := by
  constructor
  · intro gates
    rw [cancelInverseGates, cancelAux_eq_spec gates 0, List.drop_zero]
  · rw [cancelInverseGates]
    rw [cancelAux, dif_pos (by norm_num)]
    rw [if_neg (by simp [selfInverseNames])]
    rw [cancelAux, dif_pos (by norm_num)]
    rw [if_pos (by simp [selfInverseNames])]
    rw [cancelAux, dif_pos (by norm_num)]
    rw [if_neg (by simp)]
    rw [cancelAux, dif_neg (by norm_num)]
    simp

/-- C8: `merge_rotations` replaces every maximal run of consecutive gates of
the same rotation kind (RX, RY, RZ) on the same single target qubit by one
gate carrying the run's angle sum reduced modulo 2π, emitting nothing when
the reduced angle is within 1e-10 of zero; non-rotation gates and runs of
length one are handled by the same rule, and gate order is preserved. -/
theorem C8_merge_rotations_maximal_runs :
    ∀ gates : List GateNode, mergeRotations gates = mergeRotationsSpec gates := by
  intro gates
  rw [mergeRotations, mergeAux_eq_spec gates 0, List.drop_zero]

/-- C9: a gate whose name the library does not recognise aborts the run with
an UnknownGate error, and the session's Amplitude Vector keeps the
intermediate state produced by the gates already processed (no rollback). -/
theorem C9_unknown_gate_partial_state (useSparse : Bool) (n : ℕ)
    (pre rest : List GateNode) (s : Vec) (g : GateNode)
    (hpre : runGates useSparse n (basisVec n 0) pre = (s, none))
    (hname : g.gate_name ∉ recognizedNames) :
    runGates useSparse n (basisVec n 0) (pre ++ g :: rest) =
      (s, some (.unknownGate g.gate_name)) := by
  rw [runGates_append_ok (g :: rest) hpre, runGates, runStep,
    get_gate_unknown hname g.params]

/-- C9 witness: a 1-qubit run of just the unknown gate FOO aborts with
UnknownGate and leaves the (still initial) state untouched. -/
theorem C9_unknown_gate_witness :
    runGates false 1 (basisVec 1 0) ([] ++ ⟨"FOO", [0], [], 0⟩ :: []) =
      (basisVec 1 0, some (.unknownGate "FOO")) :=
  C9_unknown_gate_partial_state false 1 [] [] (basisVec 1 0) ⟨"FOO", [0], [], 0⟩
    rfl (by decide)

/-- C10: a two-qubit gate whose target indices are not adjacent makes the
operator expansion fail with an UnsupportedTopology error under both the
dense and the sparse construction policy, and a run reaching such a gate
aborts with that error, leaving the state produced so far. -/
theorem C10_nonadjacent_unsupported :
    (∀ (g : Mat) (c t n : ℕ) (useSparse : Bool), Nat.dist c t ≠ 1 →
      apply_two_qubit_gate g c t n useSparse = .error .unsupportedTopology) ∧
    (∀ (useSparse : Bool) (n : ℕ) (pre rest : List GateNode) (s : Vec)
        (name : String) (ps : List (String × ℝ)) (d a b : ℕ) (gm : Mat),
      runGates useSparse n (basisVec n 0) pre = (s, none) →
      get_gate name ps = .ok gm →
      Nat.dist a b ≠ 1 →
      runGates useSparse n (basisVec n 0)
          (pre ++ ⟨name, [a, b], ps, d⟩ :: rest) =
        (s, some .unsupportedTopology)) := by
  constructor
  · intro g c t n useSparse h
    rw [apply_two_qubit_gate, if_pos h]
  · intro useSparse n pre rest s name ps d a b gm hpre hgate hdist
    rw [runGates_append_ok (⟨name, [a, b], ps, d⟩ :: rest) hpre, runGates, runStep, hgate]
    dsimp only []
    rw [if_neg (by norm_num), if_pos (by norm_num)]
    rw [apply_two_qubit_gate, if_pos (by simpa using hdist)]

/-- C10 witness: CNOT on the non-adjacent pair (0, 2) of a 3-qubit register
aborts the run immediately with UnsupportedTopology. -/
theorem C10_nonadjacent_witness :
    runGates false 3 (basisVec 3 0) ([] ++ ⟨"CNOT", [0, 2], [], 0⟩ :: []) =
      (basisVec 3 0, some .unsupportedTopology) :=
  C10_nonadjacent_unsupported.2 false 3 [] [] (basisVec 3 0) "CNOT" [] 0 0 2 cnot
    rfl rfl (by norm_num [Nat.dist])

/-- C3 counterexample: the claim as stated asserts that X on qubit i of the
all-zero n-qubit state puts amplitude 1 at basis index 2^i; at n = 2, i = 0
the run instead leaves amplitude 0 at index 2^0 = 1 and amplitude 1 at
index 2 = 2^(n-1-i): the expansion makes qubit 0 the most significant bit. -/
theorem C3_little_endian_counterexample :
    (runGates false 2 (basisVec 2 0) [⟨"X", [0], [], 0⟩]).2 = none ∧
    (runGates false 2 (basisVec 2 0) [⟨"X", [0], [], 0⟩]).1.entry (2 ^ 0) = 0 ∧
    (runGates false 2 (basisVec 2 0) [⟨"X", [0], [], 0⟩]).1.entry 2 = 1 := by
  obtain ⟨h1, h2⟩ := runX_eval 2 0 (by norm_num)
  refine ⟨h1, ?_, ?_⟩
  · rw [h2 (2 ^ 0)]
    norm_num
  · rw [h2 2]
    norm_num

/-- C3 amended: the Amplitude Vector is indexed with qubit 0 as the most
significant bit: applying X to qubit i of the all-zero n-qubit state yields
amplitude 1 at basis index 2^(n-1-i) and 0 elsewhere, and the Measurement
Outcome Table's fixed-width binary-string key of that index has its 1 at
string position i — in particular the most significant (first) bit carries
qubit 0's value. -/
theorem C3_amended_bigendian :
    (∀ n q : ℕ, q < n →
      (runGates false n (basisVec n 0) [⟨"X", [q], [], 0⟩]).2 = none ∧
      (runGates false n (basisVec n 0) [⟨"X", [q], [], 0⟩]).1.entry (2 ^ (n - 1 - q)) = 1 ∧
      ∀ j, j < 2 ^ n → j ≠ 2 ^ (n - 1 - q) →
        (runGates false n (basisVec n 0) [⟨"X", [q], [], 0⟩]).1.entry j = 0) ∧
    (∀ n i p : ℕ, i < n → p < n →
      (binaryKey n (2 ^ (n - 1 - i))).getD p 2 = if p = i then 1 else 0) := by
  constructor
  · intro n q hq
    obtain ⟨h1, h2⟩ := runX_eval n q hq
    refine ⟨h1, ?_, fun j hj hne => ?_⟩
    · rw [h2]
      have hb : 2 ^ (n - 1 - q) < 2 ^ n := Nat.pow_lt_pow_right (by norm_num) (by omega)
      simp [hb]
    · rw [h2 j]
      simp [hj, hne]
  · exact fun n i p hi hp => binaryKey_pow n i p hi hp

/-- C3 witness: at n = 2, qubit 0, the excited amplitude sits at index
2^(2-1-0) = 2 and the binary key of that index has its 1 at string
position 0. -/
theorem C3_amended_bigendian_witness :
    ((0 : ℕ) < 2 ∧
      (runGates false 2 (basisVec 2 0) [⟨"X", [0], [], 0⟩]).1.entry (2 ^ (2 - 1 - 0)) = 1) ∧
    (binaryKey 2 (2 ^ (2 - 1 - 0))).getD 0 2 = if (0 : ℕ) = 0 then 1 else 0 :=
  ⟨⟨by norm_num, (C3_amended_bigendian.1 2 0 (by norm_num)).2.1⟩,
   C3_amended_bigendian.2 2 0 0 (by norm_num) (by norm_num)⟩

theorem mergeRotations_keep_x :
    mergeRotations [⟨"X", [0], [], 0⟩] = [⟨"X", [0], [], 0⟩] := by
  rw [mergeRotations]
  rw [mergeAux, dif_pos (by norm_num)]
  rw [if_neg (by simp [rotationNames])]
  rw [mergeAux, dif_neg (by norm_num)]
  simp

/-- C5 counterexample: `commute_gates` lowers the second record's depth
annotation from 1 to 0 in place (the list Python's `optimize` passes to the
rule holds the caller's records, via `gates.copy()`), so after
`optimize(gates, ['commute_gates'])` the caller's second gate record no
longer carries the depth annotation it had before the call. -/
theorem C5_depth_mutation_counterexample :
    commuteGates [⟨"X", [0], [], 0⟩, ⟨"X", [1], [], 1⟩] =
      [⟨"X", [0], [], 0⟩, ⟨"X", [1], [], 0⟩] ∧
    optimize [⟨"X", [0], [], 0⟩, ⟨"X", [1], [], 1⟩] (some ["commute_gates"]) =
      [⟨"X", [0], [], 0⟩, ⟨"X", [1], [], 0⟩] := by
  have h1 : commuteGates [⟨"X", [0], [], 0⟩, ⟨"X", [1], [], 1⟩] =
      [⟨"X", [0], [], 0⟩, ⟨"X", [1], [], 0⟩] := by
    rw [commuteGates]
    rw [commuteLoop]
    rw [show commutePass [⟨"X", [0], [], 0⟩, ⟨"X", [1], [], 1⟩] =
        ([⟨"X", [0], [], 0⟩, ⟨"X", [1], [], 0⟩], true) from by
      simp [commutePass, disjointQubits]]
    rw [dif_pos rfl]
    rw [commuteLoop]
    rw [show commutePass [⟨"X", [0], [], 0⟩, ⟨"X", [1], [], 0⟩] =
        ([⟨"X", [0], [], 0⟩, ⟨"X", [1], [], 0⟩], false) from by
      simp [commutePass, disjointQubits]]
    rw [dif_neg (by norm_num)]
  refine ⟨h1, ?_⟩
  rw [optimize]
  show applyRule "commute_gates" [⟨"X", [0], [], 0⟩, ⟨"X", [1], [], 1⟩] = _
  rw [applyRule, if_neg (by decide), if_neg (by decide), if_pos rfl, h1]

/-- C5 amended: the optimizer rules never alter a record's name,
target-qubit list or parameter mapping: `cancel_inverse` returns a sublist
of the very records it was given, `merge_rotations` returns only input
records or freshly built merged rotation records, and `commute_gates`
returns the same records in the same order with at most their depth
annotations changed — a change that can hit the caller's records in place —
while the resulting Amplitude Vector of a run is unaffected by it. -/
theorem C5_amended_no_field_mutation :
    (∀ gates : List GateNode, List.Sublist (cancelInverseGates gates) gates) ∧
    (∀ gates : List GateNode, ∀ h ∈ mergeRotations gates, h ∈ gates ∨
      ∃ g ∈ gates, ∃ v : ℝ, h = ⟨g.gate_name, g.qubits, [("theta", v)], g.depth⟩) ∧
    (∀ gates : List GateNode, (commuteGates gates).map stripGate = gates.map stripGate) ∧
    (∀ (useSparse : Bool) (n : ℕ) (v : Vec) (gates : List GateNode),
      runGates useSparse n v (commuteGates gates) = runGates useSparse n v gates) := by
  have hc : ∀ gates : List GateNode, cancelInverseGates gates = cancelInverseSpec gates := by
    intro gates
    rw [cancelInverseGates, cancelAux_eq_spec gates 0, List.drop_zero]
  have hm : ∀ gates : List GateNode, mergeRotations gates = mergeRotationsSpec gates := by
    intro gates
    rw [mergeRotations, mergeAux_eq_spec gates 0, List.drop_zero]
  refine ⟨?_, ?_, ?_, ?_⟩
  · intro gates
    rw [hc]
    exact cancelInverseSpec_sublist gates
  · intro gates h hmem
    rw [hm] at hmem
    exact mergeRotationsSpec_mem gates h hmem
  · intro gates
    exact commuteLoop_stripGate gates
  · intro useSparse n v gates
    exact runGates_stripGate_congr _ _ v (commuteLoop_stripGate gates)

/-- C5 witness: the four amended conjuncts at the one-gate program X(0). -/
theorem C5_amended_witness :
    List.Sublist (cancelInverseGates [⟨"X", [0], [], 0⟩]) [⟨"X", [0], [], 0⟩] ∧
    ((⟨"X", [0], [], 0⟩ : GateNode) ∈ [(⟨"X", [0], [], 0⟩ : GateNode)] ∨
      ∃ g ∈ [(⟨"X", [0], [], 0⟩ : GateNode)], ∃ v : ℝ,
        (⟨"X", [0], [], 0⟩ : GateNode) = ⟨g.gate_name, g.qubits, [("theta", v)], g.depth⟩) ∧
    (commuteGates [(⟨"X", [0], [], 0⟩ : GateNode)]).map stripGate =
      [(⟨"X", [0], [], 0⟩ : GateNode)].map stripGate ∧
    runGates false 1 (basisVec 1 0) (commuteGates [(⟨"X", [0], [], 0⟩ : GateNode)]) =
      runGates false 1 (basisVec 1 0) [(⟨"X", [0], [], 0⟩ : GateNode)] :=
  ⟨C5_amended_no_field_mutation.1 _,
   C5_amended_no_field_mutation.2.1 [⟨"X", [0], [], 0⟩] ⟨"X", [0], [], 0⟩
     (by rw [mergeRotations_keep_x]; exact List.mem_cons_self _ _),
   C5_amended_no_field_mutation.2.2.1 _,
   C5_amended_no_field_mutation.2.2.2 false 1 (basisVec 1 0) _⟩

/-- C2: the stride-2 loop of the sparse two-qubit expansion mis-sizes the
operator whenever the lower target index is not 0: for CNOT on the adjacent
pair (1, 2) of a 3-qubit register the dense path builds the correct 8×8
operator and the run succeeds, while the sparse path builds a 4×4 matrix
(a pure identity — the gate is never inserted) so the same run aborts on the
shape mismatch instead of producing the dense result. -/
theorem C2_sparse_two_qubit_shape_bug :
    (twoQubitDenseBuild cnot 1 2 3).rows = 8 ∧
    (twoQubitSparseBuild cnot 1 2 3).rows = 4 ∧
    (runGates false 3 (basisVec 3 0) [⟨"CNOT", [1, 2], [], 0⟩]).2 = none ∧
    (runGates true 3 (basisVec 3 0) [⟨"CNOT", [1, 2], [], 0⟩]).2 =
      some SimError.shapeMismatch := by
  refine ⟨rfl, rfl, rfl, rfl⟩

theorem pymod_three_pi : pymod (3 * Real.pi / 2 + 3 * Real.pi / 2) (2 * Real.pi) = Real.pi := by
  have h3 : 3 * Real.pi / 2 + 3 * Real.pi / 2 = 3 * Real.pi := by ring
  rw [pymod, h3]
  have hq : 3 * Real.pi / (2 * Real.pi) = 3 / 2 := by
    rw [mul_comm 2 Real.pi, ← div_div, mul_div_assoc, div_self Real.pi_ne_zero]
    ring
  rw [hq]
  have hfl : ⌊(3 : ℝ) / 2⌋ = 1 := by
    rw [Int.floor_eq_iff]
    norm_num
  rw [hfl]
  push_cast
  ring

theorem abs_pi_large : (1e-10 : ℝ) < |pymod (3 * Real.pi / 2 + 3 * Real.pi / 2) (2 * Real.pi)| := by
  rw [pymod_three_pi, abs_of_pos Real.pi_pos]
  have h := Real.pi_gt_three
  linarith

theorem optimize_two_rx :
    optimize [⟨"RX", [0], [("theta", 3 * Real.pi / 2)], 0⟩,
        ⟨"RX", [0], [("theta", 3 * Real.pi / 2)], 0⟩] none =
      [⟨"RX", [0], [("theta", Real.pi)], 0⟩] := by
  have hcancel : cancelInverseGates [⟨"RX", [0], [("theta", 3 * Real.pi / 2)], 0⟩,
      ⟨"RX", [0], [("theta", 3 * Real.pi / 2)], 0⟩] =
      [⟨"RX", [0], [("theta", 3 * Real.pi / 2)], 0⟩,
       ⟨"RX", [0], [("theta", 3 * Real.pi / 2)], 0⟩] := by
    rw [cancelInverseGates]
    rw [cancelAux, dif_pos (by norm_num)]
    rw [if_neg (by simp [selfInverseNames])]
    rw [cancelAux, dif_pos (by norm_num)]
    rw [if_neg (by norm_num)]
    rw [cancelAux, dif_neg (by norm_num)]
    simp
  have hscan : scanRun [⟨"RX", [0], [("theta", 3 * Real.pi / 2)], 0⟩,
      ⟨"RX", [0], [("theta", 3 * Real.pi / 2)], 0⟩]
      (⟨"RX", [0], [("theta", 3 * Real.pi / 2)], 0⟩) 1 (3 * Real.pi / 2) =
      (2, 3 * Real.pi / 2 + 3 * Real.pi / 2) := by
    rw [scanRun, dif_pos (by norm_num)]
    rw [scanRun, dif_neg (by norm_num)]
    simp [theta, getParam]
  have hmerge : mergeRotations [⟨"RX", [0], [("theta", 3 * Real.pi / 2)], 0⟩,
      ⟨"RX", [0], [("theta", 3 * Real.pi / 2)], 0⟩] =
      [⟨"RX", [0], [("theta", Real.pi)], 0⟩] := by
    rw [mergeRotations]
    rw [mergeAux, dif_pos (by norm_num)]
    rw [if_pos (by simp [rotationNames])]
    simp only [List.getD_cons_zero, Nat.zero_add]
    rw [show theta (GateNode.mk "RX" [0] [("theta", 3 * Real.pi / 2)] 0) =
        3 * Real.pi / 2 from by simp [theta, getParam]]
    rw [hscan]
    dsimp only []
    rw [if_pos abs_pi_large, pymod_three_pi]
    rw [mergeAux, dif_neg (by norm_num)]
  have hcommute : commuteGates [⟨"RX", [0], [("theta", Real.pi)], 0⟩] =
      [⟨"RX", [0], [("theta", Real.pi)], 0⟩] := by
    have hp : commutePass [(⟨"RX", [0], [("theta", Real.pi)], 0⟩ : GateNode)] =
        ([(⟨"RX", [0], [("theta", Real.pi)], 0⟩ : GateNode)], false) := by
      simp only [commutePass]
    rw [commuteGates, commuteLoop, hp]
    simp
  rw [optimize]
  show applyRule "commute_gates" (applyRule "merge_rotations" (applyRule "cancel_inverse" _)) = _
  rw [show ∀ l : List GateNode, applyRule "cancel_inverse" l = cancelInverseGates l from
    fun l => by rw [applyRule, if_pos rfl]]
  rw [hcancel]
  rw [show ∀ l : List GateNode, applyRule "merge_rotations" l = mergeRotations l from
    fun l => by rw [applyRule, if_neg (by decide), if_pos rfl]]
  rw [hmerge]
  rw [show ∀ l : List GateNode, applyRule "commute_gates" l = commuteGates l from
    fun l => by rw [applyRule, if_neg (by decide), if_neg (by decide), if_pos rfl]]
  rw [hcommute]

theorem rx_single_run (θv : ℝ) :
    runGates false 1 (basisVec 1 0) [⟨"RX", [0], [("theta", θv)], 0⟩] =
      (⟨2, fun r => if r < 2 then (rx θv).entry r 0 else 0⟩, none) := by
  have hstep : runStep false 1 (basisVec 1 0) ⟨"RX", [0], [("theta", θv)], 0⟩ =
      .ok ⟨2, fun r => if r < 2 then (rx θv).entry r 0 else 0⟩ := by
    rw [runStep]
    rw [show get_gate (GateNode.mk "RX" [0] [("theta", θv)] 0).gate_name
        (GateNode.mk "RX" [0] [("theta", θv)] 0).params = .ok (rx θv) from rfl]
    dsimp only []
    rw [if_pos (by norm_num)]
    rw [apply_single_qubit_gate, ite_self]
    rw [show (GateNode.mk "RX" [0] [("theta", θv)] 0).qubits.getD 0 0 = 0 from rfl]
    rw [show singleQubitBuild (rx θv) 0 1 = rx θv from by
      rw [singleQubitBuild]
      simp [List.range']]
    exact matVec_basis0 (by norm_num [rx, mkMat] : (rx θv).cols = 2 ^ 1)
  have h1 : runGates false 1 (basisVec 1 0) [⟨"RX", [0], [("theta", θv)], 0⟩] =
      match runStep false 1 (basisVec 1 0) ⟨"RX", [0], [("theta", θv)], 0⟩ with
      | .ok w => runGates false 1 w []
      | .error e => (basisVec 1 0, some e) := rfl
  rw [h1, hstep]
  rfl

/-- C1: counter-evidence for the optimizer-equivalence contract: the program
RX(3π/2), RX(3π/2) on one qubit runs without error under both settings, but
`merge_rotations` replaces it by RX(π) (the sum 3π reduced modulo 2π), and
rotation matrices are 4π-periodic in their angle, so the optimized run ends
in amplitude -i at index 1 where the unoptimized run ends in amplitude +i —
a difference of modulus 2, far beyond the 1e-9 tolerance. -/
theorem C1_optimized_run_sign_flip :
    (run false false 1 [⟨"RX", [0], [("theta", 3 * Real.pi / 2)], 0⟩,
        ⟨"RX", [0], [("theta", 3 * Real.pi / 2)], 0⟩]).2 = none ∧
    (run false true 1 [⟨"RX", [0], [("theta", 3 * Real.pi / 2)], 0⟩,
        ⟨"RX", [0], [("theta", 3 * Real.pi / 2)], 0⟩]).2 = none ∧
    (run false false 1 [⟨"RX", [0], [("theta", 3 * Real.pi / 2)], 0⟩,
        ⟨"RX", [0], [("theta", 3 * Real.pi / 2)], 0⟩]).1.entry 1 = Complex.I ∧
    (run false true 1 [⟨"RX", [0], [("theta", 3 * Real.pi / 2)], 0⟩,
        ⟨"RX", [0], [("theta", 3 * Real.pi / 2)], 0⟩]).1.entry 1 = -Complex.I := by
  have hs : Real.sin ((3 * Real.pi / 2) / 2) = Real.sqrt 2 / 2 := by
    rw [show (3 * Real.pi / 2) / 2 = Real.pi - Real.pi / 4 by ring]
    rw [Real.sin_pi_sub, Real.sin_pi_div_four]
  have hc : Real.cos ((3 * Real.pi / 2) / 2) = -(Real.sqrt 2 / 2) := by
    rw [show (3 * Real.pi / 2) / 2 = Real.pi - Real.pi / 4 by ring]
    rw [Real.cos_pi_sub, Real.cos_pi_div_four]
  have hopt : run false true 1 [⟨"RX", [0], [("theta", 3 * Real.pi / 2)], 0⟩,
      ⟨"RX", [0], [("theta", 3 * Real.pi / 2)], 0⟩] =
      (⟨2, fun r => if r < 2 then (rx Real.pi).entry r 0 else 0⟩, none) := by
    rw [run, if_pos rfl, optimize_two_rx, rx_single_run]
  have hstep2 : runStep false 1 (⟨2, fun r => if r < 2 then
      (rx (3 * Real.pi / 2)).entry r 0 else 0⟩ : Vec)
        ⟨"RX", [0], [("theta", 3 * Real.pi / 2)], 0⟩ =
      .ok ⟨2, fun i => if i < 2 then ∑ j ∈ Finset.range 2,
        (rx (3 * Real.pi / 2)).entry i j *
          (if j < 2 then (rx (3 * Real.pi / 2)).entry j 0 else 0) else 0⟩ := by
    rw [runStep]
    rw [show get_gate (GateNode.mk "RX" [0] [("theta", 3 * Real.pi / 2)] 0).gate_name
        (GateNode.mk "RX" [0] [("theta", 3 * Real.pi / 2)] 0).params =
        .ok (rx (3 * Real.pi / 2)) from rfl]
    dsimp only []
    rw [if_pos (by norm_num)]
    rw [apply_single_qubit_gate, ite_self]
    rw [show (GateNode.mk "RX" [0] [("theta", 3 * Real.pi / 2)] 0).qubits.getD 0 0 = 0
      from rfl]
    rw [show singleQubitBuild (rx (3 * Real.pi / 2)) 0 1 = rx (3 * Real.pi / 2) from by
      rw [singleQubitBuild]
      simp [List.range']]
    rfl
  have hunopt : run false false 1 [⟨"RX", [0], [("theta", 3 * Real.pi / 2)], 0⟩,
      ⟨"RX", [0], [("theta", 3 * Real.pi / 2)], 0⟩] =
      (⟨2, fun i => if i < 2 then ∑ j ∈ Finset.range 2,
        (rx (3 * Real.pi / 2)).entry i j *
          (if j < 2 then (rx (3 * Real.pi / 2)).entry j 0 else 0) else 0⟩, none) := by
    rw [run, if_neg (by norm_num)]
    have h1 : runGates false 1 (basisVec 1 0)
        [⟨"RX", [0], [("theta", 3 * Real.pi / 2)], 0⟩,
         ⟨"RX", [0], [("theta", 3 * Real.pi / 2)], 0⟩] =
        match runStep false 1 (basisVec 1 0) ⟨"RX", [0], [("theta", 3 * Real.pi / 2)], 0⟩ with
        | .ok w => runGates false 1 w [⟨"RX", [0], [("theta", 3 * Real.pi / 2)], 0⟩]
        | .error e => (basisVec 1 0, some e) := rfl
    have hstep1 : runStep false 1 (basisVec 1 0)
        ⟨"RX", [0], [("theta", 3 * Real.pi / 2)], 0⟩ =
        .ok ⟨2, fun r => if r < 2 then (rx (3 * Real.pi / 2)).entry r 0 else 0⟩ := by
      rw [runStep]
      rw [show get_gate (GateNode.mk "RX" [0] [("theta", 3 * Real.pi / 2)] 0).gate_name
          (GateNode.mk "RX" [0] [("theta", 3 * Real.pi / 2)] 0).params =
          .ok (rx (3 * Real.pi / 2)) from rfl]
      dsimp only []
      rw [if_pos (by norm_num)]
      rw [apply_single_qubit_gate, ite_self]
      rw [show (GateNode.mk "RX" [0] [("theta", 3 * Real.pi / 2)] 0).qubits.getD 0 0 = 0
        from rfl]
      rw [show singleQubitBuild (rx (3 * Real.pi / 2)) 0 1 = rx (3 * Real.pi / 2) from by
        rw [singleQubitBuild]
        simp [List.range']]
      exact matVec_basis0 (by norm_num [rx, mkMat] : (rx (3 * Real.pi / 2)).cols = 2 ^ 1)
    rw [h1, hstep1]
    dsimp only []
    have h2 : runGates false 1 (⟨2, fun r => if r < 2 then
        (rx (3 * Real.pi / 2)).entry r 0 else 0⟩ : Vec)
        [⟨"RX", [0], [("theta", 3 * Real.pi / 2)], 0⟩] =
        match runStep false 1 (⟨2, fun r => if r < 2 then
            (rx (3 * Real.pi / 2)).entry r 0 else 0⟩ : Vec)
          ⟨"RX", [0], [("theta", 3 * Real.pi / 2)], 0⟩ with
        | .ok w => runGates false 1 w []
        | .error e => ((⟨2, fun r => if r < 2 then
            (rx (3 * Real.pi / 2)).entry r 0 else 0⟩ : Vec), some e) := rfl
    rw [h2, hstep2]
    rfl
  refine ⟨by rw [hunopt], by rw [hopt], ?_, ?_⟩
  · rw [hunopt]
    dsimp only []
    rw [if_pos (by norm_num)]
    rw [Finset.sum_range_succ, Finset.sum_range_succ, Finset.sum_range_zero]
    simp only [rx, mkMat, List.getD_cons_zero, List.getD_cons_succ, hs, hc]
    norm_num
    push_cast
    linear_combination (Complex.I / 2) * sqrt_two_sq_complex
  · rw [hopt]
    dsimp only []
    rw [if_pos (by norm_num)]
    simp only [rx, mkMat, List.getD_cons_zero, List.getD_cons_succ]
    rw [show Real.pi / 2 = Real.pi / 2 from rfl, Real.sin_pi_div_two]
    norm_num

/-- C6: for any sequence of built-in gates run on any initial basis state
(under either construction policy), the Amplitude Vector after every gate
application — in particular after any prefix of the program, and also when a
later gate aborts the run — has unit norm: the sum of squared magnitudes is
exactly 1 (hence within 1e-9 of 1). -/
theorem C6_norm_preservation (useSparse : Bool) (n k : ℕ) (gates : List GateNode)
    (hk : k < 2 ^ n) (m : ℕ) :
    sumNormSq (runGates useSparse n (basisVec n k) (gates.take m)).1 = 1 := by
  rw [runGates_sumNormSq, sumNormSq_basisVec hk]

/-- C6 witness: the Bell-pair program H(0), CNOT(0,1) on two qubits keeps
unit norm after each of its gates. -/
theorem C6_norm_preservation_witness :
    0 < 2 ^ 2 ∧
    sumNormSq (runGates false 2 (basisVec 2 0)
        ([⟨"H", [0], [], 0⟩, ⟨"CNOT", [0, 1], [], 0⟩].take 2)).1 = 1 :=
  ⟨by norm_num,
   C6_norm_preservation false 2 0 [⟨"H", [0], [], 0⟩, ⟨"CNOT", [0, 1], [], 0⟩]
     (by norm_num) 2⟩


/-! ### C4: the `from_state_vector` SVD sweep -/

/-- Reducing `Except` bind on a success / error value. -/
theorem ebind_ok {α β : Type} (v : α) (f : α → Except SimError β) :
    Bind.bind (Except.ok v) f = f v := rfl

theorem ebind_err {α β : Type} (e : SimError) (f : α → Except SimError β) :
    Bind.bind (Except.error e : Except SimError α) f = Except.error e := rfl

/-- `getD` after `set` at the same in-range index. -/
theorem getD_set_self {α : Type} [Inhabited α] (l : List α) (i : ℕ) (v : α)
    (h : i < l.length) : (l.set i v).getD i default = v := by
  rw [List.getD_eq_getElem _ _ (by rw [List.length_set]; exact h)]
  simp

theorem fromSVStep_step0 (svd : Arr → Arr × Arr × Arr) (hsvd : SvdWellShaped svd)
    (ts : List Arr) (r : Arr) (hr : r.shape = [2, 2, 2, 2, 2]) :
    ∃ t q, fromSVStep svd 100 5 (ts, r) 0 = .ok (ts.set 0 t, q) ∧
      t.shape = [2, 2] ∧ q.shape = [2, 2, 2, 2, 2] := by
  have hsz : r.size = 32 := by rw [Arr.size, hr]; rfl
  have h2 : reshapeRows r (2 * 2 ^ 0) = .ok ⟨[2, 16], r.data⟩ := by
    rw [show (2 * 2 ^ 0 : ℕ) = 2 from rfl, reshapeRows, hsz, if_pos (by norm_num)]
  obtain ⟨hU, hS, hV⟩ := hsvd ⟨[2, 16], r.data⟩ 2 16 rfl
  rw [min_eq_left (by norm_num : (2 : ℕ) ≤ 16)] at hU hS hV
  have hUts : (sliceCols (svd ⟨[2, 16], r.data⟩).1 2).shape = [2, 2] := by
    simp only [sliceCols, hU]
    rfl
  have htnew : reshape (sliceCols (svd ⟨[2, 16], r.data⟩).1 2) [2, 2] =
      .ok ⟨[2, 2], (sliceCols (svd ⟨[2, 16], r.data⟩).1 2).data⟩ := by
    rw [reshape, Arr.size, hUts, if_pos rfl]
  have hMs : (matmulDiag (slice1D (svd ⟨[2, 16], r.data⟩).2.1 2)
      (sliceRows (svd ⟨[2, 16], r.data⟩).2.2 2)).shape = [2, 16] := by
    simp only [matmulDiag, slice1D, sliceRows, hS, hV]
    rfl
  have hrem : reshape (matmulDiag (slice1D (svd ⟨[2, 16], r.data⟩).2.1 2)
        (sliceRows (svd ⟨[2, 16], r.data⟩).2.2 2)) ([2] ++ List.replicate (5 - 0 - 1) 2) =
      .ok ⟨[2, 2, 2, 2, 2], (matmulDiag (slice1D (svd ⟨[2, 16], r.data⟩).2.1 2)
        (sliceRows (svd ⟨[2, 16], r.data⟩).2.2 2)).data⟩ := by
    rw [reshape, Arr.size, hMs, if_pos (by norm_num)]
    rfl
  refine ⟨⟨[2, 2], (sliceCols (svd ⟨[2, 16], r.data⟩).1 2).data⟩,
          ⟨[2, 2, 2, 2, 2], (matmulDiag (slice1D (svd ⟨[2, 16], r.data⟩).2.1 2)
              (sliceRows (svd ⟨[2, 16], r.data⟩).2.2 2)).data⟩, ?_, rfl, rfl⟩
  rw [fromSVStep]
  dsimp only []
  rw [h2, ebind_ok]
  rw [hS]
  rw [show min 100 (List.getD [2] 0 0) = 2 from rfl]
  rw [if_pos rfl]
  rw [htnew, ebind_ok]
  rw [hrem, ebind_ok]
  rfl

theorem fromSVStep_step1 (svd : Arr → Arr × Arr × Arr) (hsvd : SvdWellShaped svd)
    (ts : List Arr) (r : Arr) (hts : (ts.getD 0 default).shape = [2, 2])
    (hr : r.shape = [2, 2, 2, 2, 2]) :
    ∃ t q, fromSVStep svd 100 5 (ts, r) 1 = .ok (ts.set 1 t, q) ∧
      t.shape = [2, 2, 4] ∧ q.shape = [4, 2, 2, 2] := by
  have hsz : r.size = 32 := by rw [Arr.size, hr]; rfl
  have h2 : reshapeRows r (2 * 2 ^ 1) = .ok ⟨[4, 8], r.data⟩ := by
    rw [show (2 * 2 ^ 1 : ℕ) = 4 from rfl, reshapeRows, hsz, if_pos (by norm_num)]
  obtain ⟨hU, hS, hV⟩ := hsvd ⟨[4, 8], r.data⟩ 4 8 rfl
  rw [min_eq_left (by norm_num : (4 : ℕ) ≤ 8)] at hU hS hV
  have hUts : (sliceCols (svd ⟨[4, 8], r.data⟩).1 4).shape = [4, 4] := by
    simp only [sliceCols, hU]
    rfl
  have htnew : reshape (sliceCols (svd ⟨[4, 8], r.data⟩).1 4) [2, 2, 4] =
      .ok ⟨[2, 2, 4], (sliceCols (svd ⟨[4, 8], r.data⟩).1 4).data⟩ := by
    rw [reshape, Arr.size, hUts, if_pos (by norm_num)]
  have hMs : (matmulDiag (slice1D (svd ⟨[4, 8], r.data⟩).2.1 4)
      (sliceRows (svd ⟨[4, 8], r.data⟩).2.2 4)).shape = [4, 8] := by
    simp only [matmulDiag, slice1D, sliceRows, hS, hV]
    rfl
  have hrem : reshape (matmulDiag (slice1D (svd ⟨[4, 8], r.data⟩).2.1 4)
        (sliceRows (svd ⟨[4, 8], r.data⟩).2.2 4)) ([4] ++ List.replicate (5 - 1 - 1) 2) =
      .ok ⟨[4, 2, 2, 2], (matmulDiag (slice1D (svd ⟨[4, 8], r.data⟩).2.1 4)
        (sliceRows (svd ⟨[4, 8], r.data⟩).2.2 4)).data⟩ := by
    rw [reshape, Arr.size, hMs, if_pos (by norm_num)]
    rfl
  refine ⟨⟨[2, 2, 4], (sliceCols (svd ⟨[4, 8], r.data⟩).1 4).data⟩,
          ⟨[4, 2, 2, 2], (matmulDiag (slice1D (svd ⟨[4, 8], r.data⟩).2.1 4)
              (sliceRows (svd ⟨[4, 8], r.data⟩).2.2 4)).data⟩, ?_, rfl, rfl⟩
  rw [fromSVStep]
  dsimp only []
  rw [h2, ebind_ok]
  rw [hS]
  rw [show min 100 (List.getD [4] 0 0) = 4 from rfl]
  rw [if_neg (by norm_num)]
  rw [show (1 : ℕ) - 1 = 0 from rfl]
  rw [hts]
  rw [show List.getLastD [2, 2] 0 = 2 from rfl]
  rw [htnew, ebind_ok]
  rw [hrem, ebind_ok]
  rfl

theorem fromSVStep_step2 (svd : Arr → Arr × Arr × Arr) (hsvd : SvdWellShaped svd)
    (ts : List Arr) (r : Arr) (hts : (ts.getD 1 default).shape = [2, 2, 4])
    (hr : r.shape = [4, 2, 2, 2]) :
    ∃ t q, fromSVStep svd 100 5 (ts, r) 2 = .ok (ts.set 2 t, q) ∧
      t.shape = [4, 2, 4] ∧ q.shape = [4, 2, 2] := by
  have hsz : r.size = 32 := by rw [Arr.size, hr]; rfl
  have h2 : reshapeRows r (2 * 2 ^ 2) = .ok ⟨[8, 4], r.data⟩ := by
    rw [show (2 * 2 ^ 2 : ℕ) = 8 from rfl, reshapeRows, hsz, if_pos (by norm_num)]
  obtain ⟨hU, hS, hV⟩ := hsvd ⟨[8, 4], r.data⟩ 8 4 rfl
  rw [min_eq_right (by norm_num : (4 : ℕ) ≤ 8)] at hU hS hV
  have hUts : (sliceCols (svd ⟨[8, 4], r.data⟩).1 4).shape = [8, 4] := by
    simp only [sliceCols, hU]
    rfl
  have htnew : reshape (sliceCols (svd ⟨[8, 4], r.data⟩).1 4) [4, 2, 4] =
      .ok ⟨[4, 2, 4], (sliceCols (svd ⟨[8, 4], r.data⟩).1 4).data⟩ := by
    rw [reshape, Arr.size, hUts, if_pos (by norm_num)]
  have hMs : (matmulDiag (slice1D (svd ⟨[8, 4], r.data⟩).2.1 4)
      (sliceRows (svd ⟨[8, 4], r.data⟩).2.2 4)).shape = [4, 4] := by
    simp only [matmulDiag, slice1D, sliceRows, hS, hV]
    rfl
  have hrem : reshape (matmulDiag (slice1D (svd ⟨[8, 4], r.data⟩).2.1 4)
        (sliceRows (svd ⟨[8, 4], r.data⟩).2.2 4)) ([4] ++ List.replicate (5 - 2 - 1) 2) =
      .ok ⟨[4, 2, 2], (matmulDiag (slice1D (svd ⟨[8, 4], r.data⟩).2.1 4)
        (sliceRows (svd ⟨[8, 4], r.data⟩).2.2 4)).data⟩ := by
    rw [reshape, Arr.size, hMs, if_pos (by norm_num)]
    rfl
  refine ⟨⟨[4, 2, 4], (sliceCols (svd ⟨[8, 4], r.data⟩).1 4).data⟩,
          ⟨[4, 2, 2], (matmulDiag (slice1D (svd ⟨[8, 4], r.data⟩).2.1 4)
              (sliceRows (svd ⟨[8, 4], r.data⟩).2.2 4)).data⟩, ?_, rfl, rfl⟩
  rw [fromSVStep]
  dsimp only []
  rw [h2, ebind_ok]
  rw [hS]
  rw [show min 100 (List.getD [4] 0 0) = 4 from rfl]
  rw [if_neg (by norm_num)]
  rw [show (2 : ℕ) - 1 = 1 from rfl]
  rw [hts]
  rw [show List.getLastD [2, 2, 4] 0 = 4 from rfl]
  rw [htnew, ebind_ok]
  rw [hrem, ebind_ok]
  rfl

theorem fromSVStep_step3 (svd : Arr → Arr × Arr × Arr) (hsvd : SvdWellShaped svd)
    (ts : List Arr) (r : Arr) (hts : (ts.getD 2 default).shape = [4, 2, 4])
    (hr : r.shape = [4, 2, 2]) :
    fromSVStep svd 100 5 (ts, r) 3 = .error .shapeMismatch := by
  have hsz : r.size = 16 := by rw [Arr.size, hr]; rfl
  have h2 : reshapeRows r (2 * 2 ^ 3) = .ok ⟨[16, 1], r.data⟩ := by
    rw [show (2 * 2 ^ 3 : ℕ) = 16 from rfl, reshapeRows, hsz, if_pos (by norm_num)]
  obtain ⟨hU, hS, hV⟩ := hsvd ⟨[16, 1], r.data⟩ 16 1 rfl
  rw [min_eq_right (by norm_num : (1 : ℕ) ≤ 16)] at hU hS hV
  have hUts : (sliceCols (svd ⟨[16, 1], r.data⟩).1 1).shape = [16, 1] := by
    simp only [sliceCols, hU]
    rfl
  have htfail : reshape (sliceCols (svd ⟨[16, 1], r.data⟩).1 1) [4, 2, 1] =
      .error .shapeMismatch := by
    rw [reshape, Arr.size, hUts, if_neg (by norm_num)]
  rw [fromSVStep]
  dsimp only []
  rw [h2, ebind_ok]
  rw [hS]
  rw [show min 100 (List.getD [1] 0 0) = 1 from rfl]
  rw [if_neg (by norm_num)]
  rw [show (3 : ℕ) - 1 = 2 from rfl]
  rw [hts]
  rw [show List.getLastD [4, 2, 4] 0 = 4 from rfl]
  rw [htfail, ebind_err]

/-- `svdTriv` obeys numpy's SVD shape contract. -/
theorem svdTriv_wellShaped : SvdWellShaped svdTriv := by
  intro a r c h
  refine ⟨?_, ?_, ?_⟩ <;> simp [svdTriv, h]

/-- C4: counter-evidence for the MPS round-trip claim: for every well-shaped
SVD oracle and every 5-qubit state vector (length 32, well within the default
bond cap of 100, whose exact chain needs bonds at most 4), `from_state_vector`
does not produce a tensor chain at all: the sweep reshapes the remainder to
`2 * 2 ** i` rows instead of `prev_bond * 2`, and at `i = 3` it then asks the
16-element truncated `U` to become a `(4, 2, 1)` tensor, raising a shape
error, so `to_state_vector` can never be applied to the result. -/
theorem C4_from_state_vector_crash (svd : Arr → Arr × Arr × Arr) (hsvd : SvdWellShaped svd)
    (state : Arr) (hst : state.shape = [32]) :
    from_state_vector svd state 100 = .error .shapeMismatch := by
  obtain ⟨sh, d⟩ := state
  obtain rfl : sh = [32] := hst
  have hn : Nat.log2 (Arr.size ⟨[32], d⟩) = 5 := by
    rw [show Arr.size ⟨[32], d⟩ = 32 from rfl]
    simp [Nat.log2]
  rw [from_state_vector]
  rw [hn]
  have h0 : reshape ⟨[32], d⟩ (List.replicate 5 2) = .ok ⟨[2, 2, 2, 2, 2], d⟩ := by
    rw [reshape, if_pos (by norm_num [Arr.size, List.prod_replicate])]
    rfl
  rw [h0, ebind_ok]
  rw [show List.range (5 - 1) = [0, 1, 2, 3] from rfl]
  have hfold : ∀ (b : List Arr × Arr) (x : ℕ) (xs : List ℕ),
      List.foldlM (fromSVStep svd 100 5) b (x :: xs) =
        Bind.bind (fromSVStep svd 100 5 b x) fun b2 =>
          List.foldlM (fromSVStep svd 100 5) b2 xs :=
    fun b x xs => rfl
  obtain ⟨t1, q1, he1, ht1, hq1⟩ :=
    fromSVStep_step0 svd hsvd (mpsInitTensors 5) ⟨[2, 2, 2, 2, 2], d⟩ rfl
  rw [hfold, he1, ebind_ok]
  have hg0 : ((mpsInitTensors 5).set 0 t1).getD 0 default = t1 :=
    getD_set_self _ _ _ (by simp [mpsInitTensors])
  obtain ⟨t2, q2, he2, ht2, hq2⟩ :=
    fromSVStep_step1 svd hsvd ((mpsInitTensors 5).set 0 t1) q1
      (by rw [hg0]; exact ht1) hq1
  rw [hfold, he2, ebind_ok]
  have hg1 : (((mpsInitTensors 5).set 0 t1).set 1 t2).getD 1 default = t2 :=
    getD_set_self _ _ _ (by simp [mpsInitTensors])
  obtain ⟨t3, q3, he3, ht3, hq3⟩ :=
    fromSVStep_step2 svd hsvd (((mpsInitTensors 5).set 0 t1).set 1 t2) q2
      (by rw [hg1]; exact ht2) hq2
  rw [hfold, he3, ebind_ok]
  have hg2 : ((((mpsInitTensors 5).set 0 t1).set 1 t2).set 2 t3).getD 2 default = t3 :=
    getD_set_self _ _ _ (by simp [mpsInitTensors])
  have he4 := fromSVStep_step3 svd hsvd ((((mpsInitTensors 5).set 0 t1).set 1 t2).set 2 t3) q3
      (by rw [hg2]; exact ht3) hq3
  rw [hfold, he4, ebind_err, ebind_err]

/-- C4 witness: the failure at the concrete all-zero 32-amplitude state with
the shape-correct stand-in SVD oracle. -/
theorem C4_from_state_vector_crash_witness :
    SvdWellShaped svdTriv ∧ (Arr.mk [32] fun _ => 0).shape = [32] ∧
    from_state_vector svdTriv ⟨[32], fun _ => 0⟩ 100 = .error .shapeMismatch :=
  ⟨svdTriv_wellShaped, rfl,
   C4_from_state_vector_crash svdTriv svdTriv_wellShaped ⟨[32], fun _ => 0⟩ rfl⟩


end QSim
